import Mathlib

/-!
Verification development for the process-isolated TTS delivery subsystem:
text segmenter, sentence aggregator, worker supervisor/protocol client and
the interruption-aware synthesis loop.  Text is modelled as `List Char`
(one entry per Python character), machine behaviour as pure functions.
-/

namespace Iara

abbrev Text := List Char

/-- Python whitespace (the ASCII characters matched by a regex `\s`). -/
def isWS (c : Char) : Bool :=
  c = ' ' || c = '\t' || c = '\n' || c = '\r' || c = Char.ofNat 11 || c = Char.ofNat 12

/-- All whitespace removed; used to state non-loss properties. -/
def dropWS (t : Text) : Text := t.filter (fun c => !isWS c)

/-- Python `str.lstrip()`. -/
def stripL (t : Text) : Text := t.dropWhile isWS

/-- Python `str.rstrip()`. -/
def stripR (t : Text) : Text := (t.reverse.dropWhile isWS).reverse

/-- Python `str.strip()`. -/
def pyStrip (t : Text) : Text := stripR (stripL t)

/-- One step of collapsing whitespace runs: the flag records whether the
current position is inside a run whose single replacement space was already
emitted. -/
def collapseAux : Bool → Text → Text
  | _, [] => []
  | inRun, c :: rest =>
    if isWS c then
      if inRun then collapseAux true rest else ' ' :: collapseAux true rest
    else c :: collapseAux false rest

/-- Python `re.sub(r"\s+", " ", text)`. -/
def collapseWS (t : Text) : Text := collapseAux false t

/-- `_normalize_text`: collapse whitespace runs, then strip. -/
def normalizeText (t : Text) : Text := pyStrip (collapseWS t)

/-- Accumulator worker for Python `str.split()`: `acc` holds the reversed
characters of the word currently being read. -/
def wordsAux : Text → Text → List Text
  | [], acc => if acc = [] then [] else [acc.reverse]
  | c :: rest, acc =>
    if isWS c then
      if acc = [] then wordsAux rest [] else acc.reverse :: wordsAux rest []
    else wordsAux rest (c :: acc)

/-- Python `text.split()`: maximal whitespace-free runs, empties dropped. -/
def pyWords (t : Text) : List Text := wordsAux t []

/-- Python `" ".join(ws)`. -/
def joinSpace : List Text → Text
  | [] => []
  | [w] => w
  | w :: x :: rest => w ++ ' ' :: joinSpace (x :: rest)

end Iara

namespace Iara

/-! ### Text segmenter (`tts_mlx_isolated.py`) -/

/-- Segmentation bounds carried by the service instance. -/
structure SegConfig where
  minChars : Nat
  minWords : Nat
  maxChars : Nat
  maxWords : Nat
deriving DecidableEq, Repr

/-- `_is_too_short`: fewer words than the minimum. -/
def isTooShortT (cfg : SegConfig) (t : Text) : Bool :=
  (pyWords t).length < cfg.minWords

/-- `_is_too_long`: more characters than `maxChars` or more words than
`maxWords`. -/
def isTooLongT (cfg : SegConfig) (t : Text) : Bool :=
  t.length > cfg.maxChars || (pyWords t).length > cfg.maxWords

/-- Sentence-terminal punctuation of the splitting regex `[.!?]+`. -/
def isTermPunct (c : Char) : Bool := c = '.' || c = '!' || c = '?'

/-- Trailing quote/bracket characters of the regex group, an apostrophe
(codepoint 39), a double quote, a closing parenthesis or bracket. -/
def isCloser (c : Char) : Bool :=
  c = Char.ofNat 39 || c = '"' || c = ')' || c = ']'

/-- Scanner state while looking for a boundary of the regex
`[.!?]+(?:[quote-or-bracket]+)?\s+`. -/
inductive SMode | plain | inPunct | inClos | inWS
deriving DecidableEq, Repr

/-- Character-level scan of `_split_into_sentences`: `acc` is the reversed
text since the previous boundary; a boundary is complete when a
punct-run/closer-run/whitespace-run match ends (the whitespace run is
greedy, so the boundary fires on the first character after it). -/
def sentencesAux : SMode → Text → Text → List Text
  | _, acc, [] =>
    let tail := pyStrip acc.reverse
    if tail = [] then [] else [tail]
  | mode, acc, c :: rest =>
    match mode with
    | .inWS =>
      if isWS c then sentencesAux .inWS (c :: acc) rest
      else
        let seg := pyStrip acc.reverse
        let segs := sentencesAux (if isTermPunct c then .inPunct else .plain) [c] rest
        if seg = [] then segs else seg :: segs
    | .inPunct =>
      if isTermPunct c then sentencesAux .inPunct (c :: acc) rest
      else if isCloser c then sentencesAux .inClos (c :: acc) rest
      else if isWS c then sentencesAux .inWS (c :: acc) rest
      else sentencesAux .plain (c :: acc) rest
    | .inClos =>
      if isCloser c then sentencesAux .inClos (c :: acc) rest
      else if isTermPunct c then sentencesAux .inPunct (c :: acc) rest
      else if isWS c then sentencesAux .inWS (c :: acc) rest
      else sentencesAux .plain (c :: acc) rest
    | .plain =>
      if isTermPunct c then sentencesAux .inPunct (c :: acc) rest
      else sentencesAux .plain (c :: acc) rest

/-- `_split_into_sentences`. -/
def splitIntoSentences (t : Text) : List Text := sentencesAux .plain [] t

/-- Loop of `_merge_short_segments` with its running `buffer`. -/
def mergeShortAux (cfg : SegConfig) : List Text → Text → List Text
  | [], buffer => if buffer = [] then [] else [buffer]
  | seg :: rest, buffer =>
    if buffer = [] then mergeShortAux cfg rest seg
    else if isTooShortT cfg buffer then
      mergeShortAux cfg rest (pyStrip (buffer ++ ' ' :: seg))
    else buffer :: mergeShortAux cfg rest seg

/-- `_merge_short_segments`. -/
def mergeShortSegments (cfg : SegConfig) (segs : List Text) : List Text :=
  mergeShortAux cfg segs []

/-- `word.endswith((";", ":", em-dash, "-"))`. -/
def endsSoftBreak (w : Text) : Bool :=
  match w.getLast? with
  | some c => c = ';' || c = ':' || c = '—' || c = '-'
  | none => false

/-- Loop of `_chunk_by_words` with its running `current` word list. -/
def chunkAux (cfg : SegConfig) : List Text → List Text → List Text
  | [], current => if current = [] then [] else [pyStrip (joinSpace current)]
  | w :: rest, current =>
    if current = [] then chunkAux cfg rest [w]
    else if (joinSpace (current ++ [w])).length > cfg.maxChars
        || current.length + 1 > cfg.maxWords then
      pyStrip (joinSpace current) :: chunkAux cfg rest [w]
    else if (joinSpace (current ++ [w])).length ≥ cfg.minChars
        && endsSoftBreak w then
      pyStrip (joinSpace (current ++ [w])) :: chunkAux cfg rest []
    else chunkAux cfg rest (current ++ [w])

/-- `_chunk_by_words`. -/
def chunkByWords (cfg : SegConfig) (t : Text) : List Text :=
  match pyWords t with
  | [] => []
  | ws => chunkAux cfg ws []

/-- The expansion loop of `_split_text_for_tts`: segments exceeding the
maximum are re-chunked by words, the others are kept. -/
def expandLong (cfg : SegConfig) (segs : List Text) : List Text :=
  segs.flatMap fun seg => if isTooLongT cfg seg then chunkByWords cfg seg else [seg]

/-- The list comprehension of `_split_text_for_tts`: strip each segment
and drop the ones that strip to nothing. -/
def cleanSegs (l : List Text) : List Text :=
  l.filterMap fun seg =>
    let s := pyStrip seg
    if s = [] then none else some s

/-- `_split_text_for_tts`. -/
def splitTextForTTS (cfg : SegConfig) (t : Text) : List Text :=
  let normalized := normalizeText t
  if normalized = [] then []
  else
    let segments := splitIntoSentences normalized
    if segments = [] then [normalized]
    else
      match mergeShortSegments cfg
        (cleanSegs (expandLong cfg (mergeShortSegments cfg segments))) with
      | [] => [normalized]
      | res => res

end Iara

namespace Iara

/-! ### Sentence aggregator (`assistant_sentence_aggregator.py`)

The aggregator is parameterised over the sentence-boundary matcher
`eos : Text → Nat` standing for the external `match_endofsentence`
(`0` means "no complete sentence"); a concrete model of that external
function is given below for the concrete examples. -/

/-- Incoming pipeline frames relevant to the aggregator. -/
inductive AFrame
  | startInterruption
  | cancel
  | respStart
  | respEnd
  | endFrame
  | textF (t : Text)
  | otherF
deriving DecidableEq, Repr

/-- Output of the aggregator: an `LLMTextFrame` it created, or the
incoming frame forwarded downstream. -/
inductive OutFrame
  | textOut (t : Text)
  | fwd (f : AFrame)
deriving DecidableEq, Repr

/-- Aggregator mutable state. -/
structure AggState where
  enabled : Bool
  minWords : Nat
  buffer : Text
  carry : Text
  started : Bool
deriving DecidableEq, Repr

/-- `_reset`. -/
def resetSt (st : AggState) : AggState :=
  { st with buffer := [], carry := [], started := false }

/-- `_pop_sentence`: slice the buffer at the matched boundary. -/
def popSentence (eos : Text → Nat) (st : AggState) : Option (Text × AggState) :=
  let e := eos st.buffer
  if e = 0 then none
  else some (pyStrip (st.buffer.take e), { st with buffer := st.buffer.drop e })

/-- `_merge_or_buffer`: prepend a pending carry (single separating space,
carry cleared), then keep the result as the new carry when it is still
below the word minimum, otherwise release it. -/
def mergeOrBuffer (st : AggState) (s : Text) : Option Text × AggState :=
  if s = [] then (none, st)
  else
    let merged := if st.carry = [] then s else pyStrip (st.carry ++ ' ' :: s)
    let st1 := { st with carry := [] }
    if (pyWords merged).length < st.minWords then (none, { st1 with carry := merged })
    else (some merged, st1)

/-- Loop of `_emit_ready_sentences`; the fuel argument only bounds the
iteration count (the Python loop terminates because each successful pop
strictly shortens the buffer). -/
def emitReadyAux (eos : Text → Nat) : Nat → AggState → List Text × AggState
  | 0, st => ([], st)
  | fuel + 1, st =>
    match popSentence eos st with
    | none => ([], st)
    | some (s, st1) =>
      let p := mergeOrBuffer st1 s
      let q := emitReadyAux eos fuel p.2
      ((match p.1 with | some t => t :: q.1 | none => q.1), q.2)

/-- `_emit_ready_sentences`. -/
def emitReady (eos : Text → Nat) (st : AggState) : List Text × AggState :=
  emitReadyAux eos (st.buffer.length + 1) st

/-- `_flush_remaining`. -/
def flushRemaining (st : AggState) : List Text × AggState :=
  let remaining :=
    if st.carry = [] then pyStrip st.buffer
    else pyStrip (st.carry ++ ' ' :: st.buffer)
  ((if remaining = [] then [] else [remaining]),
    { st with buffer := [], carry := [] })

/-- End-of-response handling shared by `LLMFullResponseEndFrame` and
`EndFrame`. -/
def procEnd (eos : Text → Nat) (st : AggState) (f : AFrame) :
    List OutFrame × AggState :=
  if st.enabled then
    let p := emitReady eos st
    let q := flushRemaining p.2
    ((p.1 ++ q.1).map .textOut ++ [.fwd f], { q.2 with started := false })
  else
    let q := flushRemaining st
    (q.1.map .textOut ++ [.fwd f], { q.2 with started := false })

/-- `process_frame`. -/
def processFrame (eos : Text → Nat) (st : AggState) :
    AFrame → List OutFrame × AggState
  | .startInterruption => ([.fwd .startInterruption], resetSt st)
  | .cancel => ([.fwd .cancel], resetSt st)
  | .respStart =>
    ([.fwd .respStart], { st with buffer := [], carry := [], started := true })
  | .respEnd => procEnd eos st .respEnd
  | .endFrame => procEnd eos st .endFrame
  | .textF t =>
    if !st.started then ([.fwd (.textF t)], st)
    else
      let st1 := { st with buffer := st.buffer ++ t }
      if st.enabled then
        let p := emitReady eos st1
        (p.1.map .textOut, p.2)
      else ([], st1)
  | .otherF => ([.fwd .otherF], st)

/-- Fold `process_frame` over a frame sequence. -/
def runAgg (eos : Text → Nat) (st : AggState) : List AFrame → List OutFrame × AggState
  | [] => ([], st)
  | f :: rest =>
    let p := processFrame eos st f
    let q := runAgg eos p.2 rest
    (p.1 ++ q.1, q.2)

/-- Modelled from the spec: the external `pipecat` helper
`match_endofsentence` (the repository only calls it) — "text up to and
including the first sentence-terminal boundary"; returns the index just
past the first terminal punctuation character that ends the text or is
followed by whitespace, `0` when there is none. -/
def matchEOSAux : Text → Nat → Nat
  | [], _ => 0
  | [c], k => if isTermPunct c then k + 1 else 0
  | c :: d :: rest, k =>
    if isTermPunct c && isWS d then k + 1 else matchEOSAux (d :: rest) (k + 1)

/-- Concrete sentence-boundary model used for concrete examples. -/
def matchEOS (t : Text) : Nat := matchEOSAux t 0

end Iara

namespace Iara

/-! ### Interruption-aware synthesis loop (`run_tts`)

`run_tts` is an asynchronous generator.  It is modelled as a pure function
from an environment (worker results, plus the value of the interruption
epoch `_interrupt_id` as observed at the k-th epoch check performed by the
invocation) to the list of frames it yields. -/

/-- Worker outcome of one `_generate_audio_bytes` call. -/
inductive GenRes
  | ok (bytes : List Nat)
  | err (msg : String)
deriving DecidableEq, Repr

/-- Environment of one `run_tts` invocation. -/
structure TTSEnv where
  /-- epoch value read at the k-th epoch check of this invocation -/
  epoch : Nat → Nat
  /-- result of `_initialize_if_needed` -/
  initOk : Bool
  /-- worker result for the generate call of segment index `i` -/
  gen : Nat → GenRes

/-- Frames yielded by `run_tts`. -/
inductive TFrame
  | started
  | stopped
  | audio (chunk : List Nat) (segIndex segTotal : Nat) (segText : Text)
  | errorF (msg : String)
deriving DecidableEq, Repr

/-- `CHUNK_SIZE` update: when the running chunk size is still `0` it
becomes the length of the current audio (or `1` when that is empty). -/
def csizeFor (csize : Nat) (bytes : List Nat) : Nat :=
  if csize = 0 then (if bytes.length > 0 then bytes.length else 1) else csize

/-- Slices of `range(0, len(bytes), csize)`; fuel-driven so it computes
(`fuel = bytes.length` suffices for `csize ≥ 1`). -/
def sliceChunksAux (csize : Nat) : Nat → List Nat → List (List Nat)
  | 0, bytes => if bytes = [] then [] else [bytes]
  | fuel + 1, bytes =>
    if bytes = [] then [] else bytes.take csize :: sliceChunksAux csize fuel (bytes.drop csize)

/-- The chunk slices emitted for one decoded audio buffer. -/
def sliceChunks (csize : Nat) (bytes : List Nat) : List (List Nat) :=
  if csize = 0 then (if bytes = [] then [] else [bytes])
  else sliceChunksAux csize bytes.length bytes

/-- Status of the segment loop: ran to completion, aborted at an epoch
mismatch, or a worker call failed (raising the exception handled by the
generator). -/
inductive SegStatus
  | done
  | aborted
  | failed (msg : String)
deriving DecidableEq, Repr

/-- Chunk-emission loop for one segment: before each chunk the epoch is
compared at check counter `c`; non-empty chunks become audio frames.
Returns the frames, the next check counter, and whether the loop ran to
completion. -/
def emitChunks (env : TTSEnv) (e0 idx total : Nat) (txt : Text) :
    List (List Nat) → Nat → List TFrame × Nat × Bool
  | [], c => ([], c, true)
  | ch :: rest, c =>
    if env.epoch c ≠ e0 then ([], c + 1, false)
    else
      let p := emitChunks env e0 idx total txt rest (c + 1)
      ((if ch = [] then p.1 else TFrame.audio ch idx total txt :: p.1), p.2)

/-- Per-segment loop of `run_tts`: skip empty segments, check the epoch
before the generate call and again after it, then emit chunk frames with
a check before each one.  Threads the check counter and the running
`CHUNK_SIZE`. -/
def segLoop (env : TTSEnv) (e0 total : Nat) :
    List Text → Nat → Nat → Nat → List TFrame × SegStatus
  | [], _, _, _ => ([], .done)
  | seg :: rest, idx, c, csize =>
    if seg = [] then segLoop env e0 total rest (idx + 1) c csize
    else if env.epoch c ≠ e0 then ([], .aborted)
    else
      match env.gen idx with
      | .err m => ([], .failed ("Audio generation failed: " ++ m))
      | .ok bytes =>
        if env.epoch (c + 1) ≠ e0 then ([], .aborted)
        else
          let cs := csizeFor csize bytes
          let p := emitChunks env e0 idx total seg (sliceChunks cs bytes) (c + 2)
          if p.2.2 then
            let q := segLoop env e0 total rest (idx + 1) p.2.1 cs
            (p.1 ++ q.1, q.2)
          else (p.1, .aborted)

/-- `run_tts`: captured epoch `e0`, a `TTSStartedFrame`, worker
initialisation (an initialisation failure raises and is converted to an
`ErrorFrame`), the epoch check after initialisation, segmentation, the
segment loop, an `ErrorFrame` on a raised generation error, and a final
`TTSStoppedFrame` from the `finally` block in every outcome. -/
def runTTS (cfg : SegConfig) (env : TTSEnv) (e0 : Nat) (streaming : Bool)
    (text : Text) (csize : Nat) : List TFrame :=
  TFrame.started ::
    (if !env.initOk then [.errorF ("Failed to initialize Kokoro worker"), .stopped]
     else if env.epoch 0 ≠ e0 then [.stopped]
     else
       let segs0 := if streaming then splitTextForTTS cfg text else [text]
       let segs := if segs0 = [] then [text] else segs0
       let p := segLoop env e0 segs.length segs 0 1 csize
       p.1 ++
         (match p.2 with
          | .failed m => [.errorF m, .stopped]
          | _ => [.stopped]))

end Iara

namespace Iara

/-! ### Worker signature, registry and supervisor (`tts_mlx_isolated.py`) -/

/-- The Qwen backend marker `"mlx-community/Qwen3-TTS-"`. -/
def qwenPre : Text := "mlx-community/Qwen3-TTS-".data

/-- `_build_signature` result: a per-Qwen-model key, or the full tuple
`(model, voice, language, sample_rate, json.dumps(settings, sort_keys))`.
Extended settings are modelled in their canonical serialised form
(a key-sorted association list), mirroring the sorted-keys JSON dump. -/
inductive Signature
  | qwen (model : Text) (sampleRate : Nat)
  | full (model : Text) (voice : Option Text) (language : Option Text)
      (sampleRate : Nat) (settings : List (Text × Text))
deriving DecidableEq, Repr

/-- `_build_signature`. -/
def buildSignature (model : Text) (voice language : Option Text)
    (sampleRate : Nat) (settings : List (Text × Text)) : Signature :=
  if qwenPre.isPrefixOf model then .qwen model sampleRate
  else .full model voice language sampleRate settings

/-- The process-wide registry `_shared_state`, keyed by signature; the
stored value is the registry entry (identified by an id). -/
def Registry := Signature → Option Nat

/-- `_get_shared_state`: look the signature up, creating a fresh entry on
first use. -/
def getSharedState (reg : Registry) (sig : Signature) (fresh : Nat) :
    Nat × Registry :=
  match reg sig with
  | some entry => (entry, reg)
  | none => (fresh, fun s => if s = sig then some fresh else reg s)

/-- Combined view of the service fields and the shared registry entry for
its signature (`self._process`, `self._initialized`,
`state["process"]`, `state["initialized"]`). -/
structure SvcState where
  selfProcess : Option Nat
  selfInitialized : Bool
  shProcess : Option Nat
  shInitialized : Bool
deriving DecidableEq, Repr

/-- Environment for one supervisor interaction: process liveness as
reported by `poll()`, whether `subprocess.Popen` succeeds, and the pid it
would produce. -/
structure SupEnv where
  alive : Nat → Bool
  spawnOk : Bool
  freshPid : Nat

/-- State update of a successful `subprocess.Popen` in `_start_worker`:
the new process is stored in the instance and the registry entry, whose
`initialized` flag is cleared. -/
def spawnedState (env : SupEnv) (s : SvcState) : SvcState :=
  { s with selfProcess := some env.freshPid, shProcess := some env.freshPid, shInitialized := false }

/-- `_start_worker`: reuse the registry process when it is still running,
otherwise spawn a new one (storing it and clearing `initialized`); a spawn
failure reports `False` without mutating shared state. -/
def startWorker (env : SupEnv) (s : SvcState) : Bool × SvcState :=
  match s.shProcess with
  | some p =>
    if env.alive p then (true, { s with selfProcess := some p })
    else if env.spawnOk then (true, spawnedState env s)
    else (false, s)
  | none =>
    if env.spawnOk then (true, spawnedState env s)
    else (false, s)

/-- `_reset_worker_state`: terminate the process and clear both the
instance fields and the shared registry entry. -/
def resetWorkerState (_s : SvcState) : SvcState :=
  { selfProcess := none, selfInitialized := false,
    shProcess := none, shInitialized := false }

/-- Command fields inspected by `_send_command`'s timeout policy. -/
structure Command where
  cmd : Text
  model : Text
  hasMode : Bool
  hasLanguage : Bool
deriving DecidableEq, Repr

/-- Per-command-class response deadline, in tenths of a second:
`10s` default, `240s` for `init` (`600s` for Qwen init), `240s` for a Qwen
generate (one carrying `mode` and `language`). -/
def cmdBudget (cmd : Command) : Nat :=
  if cmd.cmd = "init".data then
    if qwenPre.isPrefixOf cmd.model then 6000 else 2400
  else if cmd.cmd = "generate".data && cmd.hasMode && cmd.hasLanguage then 2400
  else 100

/-- One observed event of the response-reading loop. -/
inductive ReadEvent
  | notReady
  | emptyLine (procDead : Bool)
  | junkLine
  | jsonResp (success : Bool) (hasAudio : Bool)
deriving DecidableEq, Repr

/-- Result of `_send_command` as seen by the caller. -/
inductive SendRes
  | resp (success : Bool) (hasAudio : Bool)
  | errTimeout
  | errDied
  | errNoResponse
  | errStartFailed
deriving DecidableEq, Repr

/-- Whether the result is an `{"error": ...}` dictionary. -/
def SendRes.isErr : SendRes → Bool
  | .resp _ _ => false
  | _ => true

/-- Response-reading loop of `_send_command`.  Each event carries the time
it consumed (tenths of a second); the loop head compares the elapsed time
with the deadline and, on expiry, resets the worker state and reports a
timeout.  `readline` returning end-of-stream with the process dead resets
the state and reports the crash; with the process still alive it reports
`No response` without a reset.  Non-JSON lines, and `generate` successes
missing their audio payload, are skipped.  An exhausted event list means
no further data ever arrives, so the deadline expires (timeout branch). -/
def readLoop (cmd : Command) : List (Nat × ReadEvent) → Nat → SvcState →
    SendRes × SvcState
  | _, 0, s => (.errTimeout, resetWorkerState s)
  | [], _, s => (.errTimeout, resetWorkerState s)
  | (cost, ev) :: rest, remaining + 1, s =>
    match ev with
    | .notReady => readLoop cmd rest (remaining + 1 - cost) s
    | .emptyLine procDead =>
      if procDead then (.errDied, resetWorkerState s) else (.errNoResponse, s)
    | .junkLine => readLoop cmd rest (remaining + 1 - cost) s
    | .jsonResp success hasAudio =>
      if cmd.cmd = "generate".data && success && !hasAudio then
        readLoop cmd rest (remaining + 1 - cost) s
      else (.resp success hasAudio, s)

/-- `_send_command`: under the signature lock, (re)start the worker when
the instance has no live process, then run the read loop against the
command-class deadline. -/
def sendCommand (env : SupEnv) (cmd : Command) (events : List (Nat × ReadEvent))
    (s : SvcState) : SendRes × SvcState :=
  let needStart :=
    match s.selfProcess with
    | none => true
    | some p => !env.alive p
  if needStart then
    let p := startWorker env s
    if !p.1 then (.errStartFailed, p.2)
    else readLoop cmd events (cmdBudget cmd) p.2
  else readLoop cmd events (cmdBudget cmd) s

end Iara

namespace Iara

/-! ### Derived notions used by the statements -/

/-- Payloads of the `LLMTextFrame`s in an aggregator output sequence. -/
def textsOf (l : List OutFrame) : List Text :=
  l.filterMap fun f => match f with | .textOut t => some t | _ => none

/-- Whether a synthesis frame is a `TTSAudioRawFrame`. -/
def isAudioF : TFrame → Bool
  | .audio .. => true
  | _ => false

/-- Whether a synthesis frame is an `ErrorFrame`. -/
def isErrF : TFrame → Bool
  | .errorF _ => true
  | _ => false

/-- The audio frames of a synthesis output, in order. -/
def audioFrames (l : List TFrame) : List TFrame := l.filter isAudioF

/-- A segment that respects both configured maxima. -/
def withinBounds (cfg : SegConfig) (s : Text) : Prop :=
  s.length ≤ cfg.maxChars ∧ (pyWords s).length ≤ cfg.maxWords

/-- A segment that is within bounds, or a single word that alone exceeds
them. -/
def okUnit (cfg : SegConfig) (s : Text) : Prop :=
  withinBounds cfg s ∨ ((pyWords s).length = 1 ∧ ¬ withinBounds cfg s)

/-- Texts produced by the forward short-merge loop from units satisfying
`P`: either a unit itself, or a merge `strip(b ++ " " ++ s)` in which the
already-accumulated part `b` was still below the minimum word count. -/
inductive ShortMerge (cfg : SegConfig) (P : Text → Prop) : Text → Prop
  | base {s : Text} : P s → ShortMerge cfg P s
  | step {b s : Text} : ShortMerge cfg P b → isTooShortT cfg b = true → P s →
      ShortMerge cfg P (pyStrip (b ++ ' ' :: s))

/-- A word as produced by `str.split()`: non-empty and whitespace-free. -/
def WFword (w : Text) : Prop := w ≠ [] ∧ ∀ c ∈ w, isWS c = false

end Iara

namespace Iara

/-! ### Basic text lemmas -/

theorem dropWS_append (a b : Text) : dropWS (a ++ b) = dropWS a ++ dropWS b := by
  simp [dropWS]

theorem dropWS_dropWhile (t : Text) : dropWS (t.dropWhile isWS) = dropWS t := by
  induction t with
  | nil => rfl
  | cons c rest ih =>
    by_cases h : isWS c
    · simpa [dropWS, List.dropWhile_cons, h] using ih
    · simp [dropWS, List.dropWhile_cons, h]

theorem dropWS_reverse (t : Text) : dropWS t.reverse = (dropWS t).reverse := by
  simp [dropWS]

theorem dropWS_stripL (t : Text) : dropWS (stripL t) = dropWS t :=
  dropWS_dropWhile t

theorem dropWS_stripR (t : Text) : dropWS (stripR t) = dropWS t := by
  have h1 := dropWS_dropWhile t.reverse
  have h2 := dropWS_reverse t
  calc dropWS (stripR t) = (dropWS (t.reverse.dropWhile isWS)).reverse := by
        simp [stripR, dropWS_reverse]
    _ = (dropWS t.reverse).reverse := by rw [h1]
    _ = dropWS t := by rw [h2, List.reverse_reverse]

theorem dropWS_pyStrip (t : Text) : dropWS (pyStrip t) = dropWS t := by
  rw [pyStrip, dropWS_stripR, dropWS_stripL]

theorem dropWS_eq_nil_iff (t : Text) : dropWS t = [] ↔ ∀ c ∈ t, isWS c = true := by
  simp [dropWS, List.filter_eq_nil_iff]

theorem stripR_eq_nil_iff (t : Text) : stripR t = [] ↔ ∀ c ∈ t, isWS c = true := by
  simp [stripR, List.dropWhile_eq_nil_iff]

theorem forall_mem_dropWhile_iff (t : Text) :
    (∀ c ∈ t.dropWhile isWS, isWS c = true) ↔ ∀ c ∈ t, isWS c = true := by
  constructor
  · intro h c hc
    have hsplit : c ∈ t.takeWhile isWS ++ t.dropWhile isWS := by
      rw [List.takeWhile_append_dropWhile]; exact hc
    rcases List.mem_append.mp hsplit with h1 | h2
    · exact List.mem_takeWhile_imp h1
    · exact h c h2
  · intro h c hc
    exact h c ((List.dropWhile_sublist isWS).subset hc)

theorem pyStrip_eq_nil_iff (t : Text) : pyStrip t = [] ↔ ∀ c ∈ t, isWS c = true := by
  rw [pyStrip, stripR_eq_nil_iff, stripL, forall_mem_dropWhile_iff]

theorem pyStrip_eq_nil_iff_dropWS (t : Text) : pyStrip t = [] ↔ dropWS t = [] := by
  rw [pyStrip_eq_nil_iff, dropWS_eq_nil_iff]

theorem stripR_decomp (t : Text) :
    ∃ s, t = stripR t ++ s ∧ ∀ c ∈ s, isWS c = true := by
  refine ⟨(t.reverse.takeWhile isWS).reverse, ?_, ?_⟩
  · have h := List.takeWhile_append_dropWhile (p := isWS) (l := t.reverse)
    calc t = t.reverse.reverse := (List.reverse_reverse t).symm
      _ = (t.reverse.takeWhile isWS ++ t.reverse.dropWhile isWS).reverse := by rw [h]
      _ = (t.reverse.dropWhile isWS).reverse ++ (t.reverse.takeWhile isWS).reverse := by
          rw [List.reverse_append]
      _ = stripR t ++ (t.reverse.takeWhile isWS).reverse := rfl
  · intro c hc
    exact List.mem_takeWhile_imp (by simpa using hc)

end Iara

namespace Iara

/-! ### Word-splitting lemmas -/

theorem wordsAux_allWS (s : Text) (h : ∀ c ∈ s, isWS c = true) (acc : Text) :
    wordsAux s acc = wordsAux [] acc := by
  induction s generalizing acc with
  | nil => rfl
  | cons c rest ih =>
    have hc : isWS c = true := h c (List.mem_cons_self c rest)
    have hrest : ∀ x ∈ rest, isWS x = true := fun x hx => h x (List.mem_cons_of_mem c hx)
    by_cases ha : acc = []
    · subst ha
      simp [wordsAux, hc, ih hrest]
    · simp [wordsAux, hc, ha, ih hrest]

theorem wordsAux_append_allWS (u s : Text) (h : ∀ c ∈ s, isWS c = true) (acc : Text) :
    wordsAux (u ++ s) acc = wordsAux u acc := by
  induction u generalizing acc with
  | nil => simpa using wordsAux_allWS s h acc
  | cons c u2 ih =>
    by_cases hc : isWS c
    · by_cases ha : acc = []
      · subst ha; simp [wordsAux, hc, ih]
      · simp [wordsAux, hc, ha, ih]
    · simp [wordsAux, hc, ih]

theorem wordsAux_stripL (t : Text) : wordsAux (stripL t) [] = wordsAux t [] := by
  induction t with
  | nil => rfl
  | cons c rest ih =>
    by_cases hc : isWS c
    · simpa [stripL, List.dropWhile_cons, hc, wordsAux] using ih
    · simp [stripL, List.dropWhile_cons, hc]

theorem pyWords_pyStrip (t : Text) : pyWords (pyStrip t) = pyWords t := by
  obtain ⟨s, hdec, hws⟩ := stripR_decomp (stripL t)
  calc pyWords (pyStrip t) = wordsAux (stripR (stripL t)) [] := rfl
    _ = wordsAux (stripR (stripL t) ++ s) [] := (wordsAux_append_allWS _ s hws []).symm
    _ = wordsAux (stripL t) [] := by rw [← hdec]
    _ = wordsAux t [] := wordsAux_stripL t
    _ = pyWords t := rfl

theorem wordsAux_flatten (t acc : Text) :
    (wordsAux t acc).flatten = acc.reverse ++ dropWS t := by
  induction t generalizing acc with
  | nil =>
    by_cases ha : acc = [] <;> simp [wordsAux, ha, dropWS]
  | cons c rest ih =>
    by_cases hc : isWS c
    · by_cases ha : acc = []
      · subst ha; simp [wordsAux, hc, ih, dropWS]
      · simp [wordsAux, hc, ha, ih, dropWS]
    · simp [wordsAux, hc, ih, dropWS]

theorem pyWords_flatten (t : Text) : (pyWords t).flatten = dropWS t := by
  simpa using wordsAux_flatten t []

theorem wordsAux_WF (t acc : Text) (ha : ∀ c ∈ acc, isWS c = false) :
    ∀ w ∈ wordsAux t acc, WFword w := by
  induction t generalizing acc with
  | nil =>
    intro w hw
    by_cases hacc : acc = []
    · simp [wordsAux, hacc] at hw
    · simp [wordsAux, hacc] at hw
      subst hw
      exact ⟨by simpa using hacc, fun c hc => ha c (by simpa using hc)⟩
  | cons c rest ih =>
    intro w hw
    by_cases hc : isWS c
    · by_cases hacc : acc = []
      · subst hacc
        simp only [wordsAux, hc, if_pos rfl, if_true] at hw
        exact ih [] (by simp) w hw
      · simp only [wordsAux, hc, if_true, if_neg hacc] at hw
        rcases List.mem_cons.mp hw with h1 | h2
        · subst h1
          exact ⟨by simpa using hacc, fun x hx => ha x (by simpa using hx)⟩
        · exact ih [] (by simp) w h2
    · simp only [wordsAux, hc, if_false, Bool.false_eq_true] at hw
      refine ih (c :: acc) ?_ w hw
      intro x hx
      rcases List.mem_cons.mp hx with h1 | h2
      · subst h1; simpa using hc
      · exact ha x h2

theorem pyWords_WF (t : Text) : ∀ w ∈ pyWords t, WFword w :=
  wordsAux_WF t [] (by simp)

theorem wordsAux_nonws (w t acc : Text) (h : ∀ c ∈ w, isWS c = false) :
    wordsAux (w ++ t) acc = wordsAux t (w.reverse ++ acc) := by
  induction w generalizing acc with
  | nil => simp
  | cons c w2 ih =>
    have hc : isWS c = false := h c (List.mem_cons_self c w2)
    have hw2 : ∀ x ∈ w2, isWS x = false := fun x hx => h x (List.mem_cons_of_mem c hx)
    calc wordsAux ((c :: w2) ++ t) acc = wordsAux (w2 ++ t) (c :: acc) := by
          simp [wordsAux, hc]
      _ = wordsAux t (w2.reverse ++ (c :: acc)) := ih (c :: acc) hw2
      _ = wordsAux t ((c :: w2).reverse ++ acc) := by simp

theorem pyWords_joinSpace (ws : List Text) (h : ∀ w ∈ ws, WFword w) :
    pyWords (joinSpace ws) = ws := by
  induction ws with
  | nil => rfl
  | cons w rest ih =>
    have hw : WFword w := h w (List.mem_cons_self w rest)
    have hrest : ∀ x ∈ rest, WFword x := fun x hx => h x (List.mem_cons_of_mem w hx)
    cases rest with
    | nil =>
      have : pyWords (joinSpace [w]) = wordsAux (w ++ []) [] := by simp [joinSpace, pyWords]
      rw [this, wordsAux_nonws w [] [] hw.2]
      simp [wordsAux, hw.1]
    | cons x rest2 =>
      have hws : isWS ' ' = true := by decide
      have hwrev : w.reverse ≠ [] := by simpa using hw.1
      calc pyWords (joinSpace (w :: x :: rest2))
          = wordsAux (w ++ ' ' :: joinSpace (x :: rest2)) [] := rfl
        _ = wordsAux (' ' :: joinSpace (x :: rest2)) (w.reverse ++ []) :=
            wordsAux_nonws w _ [] hw.2
        _ = w :: wordsAux (joinSpace (x :: rest2)) [] := by
            simp [wordsAux, hws, hwrev]
        _ = w :: x :: rest2 := congrArg (w :: ·) (ih hrest)

theorem dropWS_joinSpace (l : List Text) : dropWS (joinSpace l) = dropWS l.flatten := by
  induction l with
  | nil => rfl
  | cons w rest ih =>
    cases rest with
    | nil => simp [joinSpace]
    | cons x rest2 =>
      have hstep : joinSpace (w :: x :: rest2) = w ++ ' ' :: joinSpace (x :: rest2) := rfl
      have hsp : dropWS (' ' :: joinSpace (x :: rest2)) = dropWS (joinSpace (x :: rest2)) := by
        have hws : isWS ' ' = true := by decide
        simp [dropWS, List.filter_cons, hws]
      rw [hstep, dropWS_append, hsp, ih]
      simp [dropWS]

end Iara

namespace Iara

/-! ### Strip-fixedness and content preservation -/

theorem dropWS_nil : dropWS [] = [] := rfl

theorem dropWS_cons_ws (c : Char) (t : Text) (h : isWS c = true) :
    dropWS (c :: t) = dropWS t := by
  simp [dropWS, List.filter_cons, h]

theorem dropWS_cons_not (c : Char) (t : Text) (h : isWS c = false) :
    dropWS (c :: t) = c :: dropWS t := by
  simp [dropWS, List.filter_cons, h]

theorem dropWS_dropWS (t : Text) : dropWS (dropWS t) = dropWS t := by
  simp [dropWS, List.filter_filter]

theorem stripL_eq_self (t : Text) (h : ∀ c, t.head? = some c → isWS c = false) :
    stripL t = t := by
  cases t with
  | nil => rfl
  | cons c rest => simp [stripL, List.dropWhile_cons, h c rfl]

theorem stripR_eq_self (t : Text) (h : ∀ c, t.getLast? = some c → isWS c = false) :
    stripR t = t := by
  have hdw : t.reverse.dropWhile isWS = t.reverse := by
    cases hre : t.reverse with
    | nil => rfl
    | cons c rest =>
      have hc : isWS c = false := by
        apply h
        rw [List.getLast?_eq_head?_reverse, hre]
        rfl
      simp [List.dropWhile_cons, hc]
  simp [stripR, hdw]

theorem pyStrip_eq_self (t : Text) (h1 : ∀ c, t.head? = some c → isWS c = false)
    (h2 : ∀ c, t.getLast? = some c → isWS c = false) : pyStrip t = t := by
  rw [pyStrip, stripL_eq_self t h1, stripR_eq_self t h2]

theorem joinSpace_cons_ex (w : Text) (rest : List Text) :
    ∃ r, joinSpace (w :: rest) = w ++ r := by
  cases rest with
  | nil => exact ⟨[], by simp [joinSpace]⟩
  | cons x rest2 => exact ⟨' ' :: joinSpace (x :: rest2), rfl⟩

theorem joinSpace_concat_ex (ws : List Text) (w : Text) :
    ∃ l, joinSpace (ws ++ [w]) = l ++ w := by
  induction ws with
  | nil => exact ⟨[], by simp [joinSpace]⟩
  | cons a ws2 ih =>
    obtain ⟨l, hl⟩ := ih
    cases hw2 : ws2 ++ [w] with
    | nil => exact absurd hw2 (by simp)
    | cons b rest =>
      refine ⟨a ++ ' ' :: l, ?_⟩
      calc joinSpace ((a :: ws2) ++ [w]) = joinSpace (a :: (b :: rest)) := by
            rw [List.cons_append, hw2]
        _ = a ++ ' ' :: joinSpace (b :: rest) := rfl
        _ = a ++ ' ' :: joinSpace (ws2 ++ [w]) := by rw [hw2]
        _ = a ++ ' ' :: (l ++ w) := by rw [hl]
        _ = (a ++ ' ' :: l) ++ w := by simp

theorem pyStrip_joinSpace (ws : List Text) (hne : ws ≠ [])
    (h : ∀ w ∈ ws, WFword w) : pyStrip (joinSpace ws) = joinSpace ws := by
  obtain ⟨w0, rest, hcons⟩ := List.exists_cons_of_ne_nil hne
  obtain ⟨L, b, hLb⟩ := (List.eq_nil_or_concat ws).resolve_left hne
  rw [List.concat_eq_append] at hLb
  have hw0 : WFword w0 := h w0 (by rw [hcons]; exact List.mem_cons_self w0 rest)
  have hb : WFword b := h b (by rw [hLb]; exact List.mem_append_right L (by simp))
  obtain ⟨c0, u0, hw0c⟩ := List.exists_cons_of_ne_nil hw0.1
  obtain ⟨ub, cb, hbcat⟩ := (List.eq_nil_or_concat b).resolve_left hb.1
  rw [List.concat_eq_append] at hbcat
  obtain ⟨r, hr⟩ := joinSpace_cons_ex w0 rest
  obtain ⟨l, hl⟩ := joinSpace_concat_ex L b
  apply pyStrip_eq_self
  · intro c hc
    rw [hcons, hr, hw0c] at hc
    simp at hc
    rw [← hc]
    exact hw0.2 c0 (by rw [hw0c]; exact List.mem_cons_self c0 u0)
  · intro c hc
    rw [hLb, hl, hbcat, show l ++ (ub ++ [cb]) = (l ++ ub) ++ [cb] by simp,
      List.getLast?_concat] at hc
    have hcb : c = cb := by simpa using hc.symm
    rw [hcb]
    exact hb.2 cb (by rw [hbcat]; exact List.mem_append_right ub (by simp))

theorem dropWS_collapseAux (t : Text) : ∀ b, dropWS (collapseAux b t) = dropWS t := by
  induction t with
  | nil => intro b; rfl
  | cons c rest ih =>
    intro b
    by_cases hc : isWS c
    · have hsp : isWS ' ' = true := by decide
      cases b <;>
        simp [collapseAux, hc, dropWS_cons_ws _ _ hsp, dropWS_cons_ws _ _ hc, ih]
    · have hc2 : isWS c = false := by simpa using hc
      simp [collapseAux, hc, dropWS_cons_not _ _ hc2, ih]

theorem dropWS_normalize (t : Text) : dropWS (normalizeText t) = dropWS t := by
  rw [normalizeText, dropWS_pyStrip, collapseWS, dropWS_collapseAux]

end Iara

namespace Iara

theorem sentencesAux_flatten (t : Text) : ∀ (mode : SMode) (acc : Text),
    dropWS (sentencesAux mode acc t).flatten = dropWS acc.reverse ++ dropWS t := by
  induction t with
  | nil =>
    intro mode acc
    by_cases h : pyStrip acc.reverse = []
    · have hdw : dropWS acc.reverse = [] := by rw [← dropWS_pyStrip, h]; rfl
      simp [sentencesAux, h, hdw, dropWS_nil]
    · simp [sentencesAux, h, dropWS_pyStrip, dropWS_nil]
  | cons c rest ih =>
    intro mode acc
    have hsplit : ∀ u : Text, dropWS (u ++ [c]) ++ dropWS rest = dropWS u ++ dropWS (c :: rest) := by
      intro u
      by_cases hc : isWS c
      · rw [dropWS_append, dropWS_cons_ws c rest hc, dropWS_cons_ws c [] hc, dropWS_nil]
        simp
      · have hc2 : isWS c = false := by simpa using hc
        rw [dropWS_append, dropWS_cons_not c rest hc2, dropWS_cons_not c [] hc2, dropWS_nil]
        simp
    have hkey : ∀ m2 : SMode, dropWS (sentencesAux m2 (c :: acc) rest).flatten
        = dropWS acc.reverse ++ dropWS (c :: rest) := by
      intro m2
      rw [ih m2 (c :: acc), List.reverse_cons, hsplit]
    have hbase : ∀ m2 : SMode, dropWS (sentencesAux m2 [c] rest).flatten
        = dropWS (c :: rest) := by
      intro m2
      have := ih m2 [c]
      rw [this, show ([c] : Text).reverse = [] ++ [c] by simp, hsplit]
      simp [dropWS_nil]
    cases mode with
    | plain =>
      by_cases hp : isTermPunct c <;> simp [sentencesAux, hp, hkey]
    | inPunct =>
      by_cases hp : isTermPunct c
      · simp [sentencesAux, hp, hkey]
      · by_cases hcl : isCloser c
        · simp [sentencesAux, hp, hcl, hkey]
        · by_cases hw : isWS c <;> simp [sentencesAux, hp, hcl, hw, hkey]
    | inClos =>
      by_cases hcl : isCloser c
      · simp [sentencesAux, hcl, hkey]
      · by_cases hp : isTermPunct c
        · simp [sentencesAux, hcl, hp, hkey]
        · by_cases hw : isWS c <;> simp [sentencesAux, hcl, hp, hw, hkey]
    | inWS =>
      by_cases hw : isWS c
      · simp [sentencesAux, hw, hkey]
      · by_cases hseg : pyStrip acc.reverse = []
        · have hdw : dropWS acc.reverse = [] := by rw [← dropWS_pyStrip, hseg]; rfl
          simp [sentencesAux, hw, hseg, hdw, hbase]
        · simp [sentencesAux, hw, hseg, dropWS_append, dropWS_pyStrip, hbase]

theorem splitIntoSentences_flatten (t : Text) :
    dropWS (splitIntoSentences t).flatten = dropWS t := by
  have := sentencesAux_flatten t .plain []
  simpa [splitIntoSentences, dropWS_nil] using this

theorem mergeShortAux_flatten (cfg : SegConfig) (segs : List Text) : ∀ b : Text,
    dropWS (mergeShortAux cfg segs b).flatten = dropWS b ++ dropWS segs.flatten := by
  induction segs with
  | nil =>
    intro b
    by_cases hb : b = [] <;> simp [mergeShortAux, hb, dropWS_nil]
  | cons s rest ih =>
    intro b
    have hsp : isWS ' ' = true := by decide
    by_cases hb : b = []
    · subst hb
      simp [mergeShortAux, ih s, dropWS_append, dropWS_nil]
    · by_cases hshort : isTooShortT cfg b
      · have hstep : dropWS (pyStrip (b ++ ' ' :: s)) = dropWS b ++ dropWS s := by
          rw [dropWS_pyStrip, dropWS_append, dropWS_cons_ws _ _ hsp]
        simp [mergeShortAux, hb, hshort, ih, hstep, dropWS_append]
      · simp [mergeShortAux, hb, hshort, ih s, dropWS_append]

theorem mergeShortSegments_flatten (cfg : SegConfig) (segs : List Text) :
    dropWS (mergeShortSegments cfg segs).flatten = dropWS segs.flatten := by
  rw [mergeShortSegments, mergeShortAux_flatten, dropWS_nil, List.nil_append]

theorem chunkAux_flatten (cfg : SegConfig) (ws : List Text) : ∀ cur : List Text,
    dropWS (chunkAux cfg ws cur).flatten
      = dropWS (joinSpace cur) ++ dropWS ws.flatten := by
  induction ws with
  | nil =>
    intro cur
    by_cases hc : cur = [] <;>
      simp [chunkAux, hc, dropWS_pyStrip, dropWS_nil, joinSpace]
  | cons w rest ih =>
    intro cur
    by_cases hc : cur = []
    · subst hc
      simp [chunkAux, ih [w], dropWS_append, dropWS_joinSpace, joinSpace, dropWS_nil]
    · by_cases hclose : (joinSpace (cur ++ [w])).length > cfg.maxChars
          || cur.length + 1 > cfg.maxWords
      · simp [chunkAux, hc, hclose, ih [w], dropWS_pyStrip, dropWS_append,
          dropWS_joinSpace, joinSpace]
      · by_cases hsoft : (joinSpace (cur ++ [w])).length ≥ cfg.minChars
            && endsSoftBreak w
        · simp [chunkAux, hc, hclose, hsoft, ih [], dropWS_pyStrip, dropWS_append,
            dropWS_joinSpace, joinSpace, dropWS_nil]
        · simp [chunkAux, hc, hclose, hsoft, ih (cur ++ [w]), dropWS_append,
            dropWS_joinSpace]

theorem chunkByWords_flatten (cfg : SegConfig) (t : Text) :
    dropWS (chunkByWords cfg t).flatten = dropWS t := by
  cases h : pyWords t with
  | nil =>
    have hfl := pyWords_flatten t
    rw [h] at hfl
    simp [chunkByWords, h, dropWS_nil, ← hfl]
  | cons w ws2 =>
    have hstep : chunkByWords cfg t = chunkAux cfg (w :: ws2) [] := by
      rw [chunkByWords, h]
    rw [hstep, chunkAux_flatten, ← h, pyWords_flatten, dropWS_dropWS]
    simp [joinSpace, dropWS_nil]

end Iara

namespace Iara

theorem expandLong_flatten (cfg : SegConfig) (l : List Text) :
    dropWS (expandLong cfg l).flatten = dropWS l.flatten := by
  induction l with
  | nil => rfl
  | cons s rest ih =>
    by_cases h : isTooLongT cfg s <;>
      simp [expandLong, h, ih, dropWS_append, chunkByWords_flatten] <;>
      simpa [expandLong] using ih

theorem cleanSegs_flatten (l : List Text) :
    dropWS (cleanSegs l).flatten = dropWS l.flatten := by
  induction l with
  | nil => rfl
  | cons s rest ih =>
    by_cases h : pyStrip s = []
    · have hdw : dropWS s = [] := by rw [← dropWS_pyStrip, h]; rfl
      simp [cleanSegs, List.filterMap_cons, h, hdw, dropWS_append]
      simpa [cleanSegs] using ih
    · simp [cleanSegs, List.filterMap_cons, h, dropWS_append, dropWS_pyStrip]
      simpa [cleanSegs] using ih

theorem splitTextForTTS_flatten (cfg : SegConfig) (t : Text) :
    dropWS (splitTextForTTS cfg t).flatten = dropWS t := by
  rw [splitTextForTTS]
  by_cases h1 : normalizeText t = []
  · have hdw : dropWS t = [] := by rw [← dropWS_normalize t, h1]; rfl
    simp [h1, hdw, dropWS_nil]
  · rw [if_neg h1]
    by_cases h2 : splitIntoSentences (normalizeText t) = []
    · simp [h2, dropWS_normalize, dropWS_append, dropWS_nil]
    · rw [if_neg h2]
      set cleaned := cleanSegs (expandLong cfg
        (mergeShortSegments cfg (splitIntoSentences (normalizeText t)))) with hcl
      have hchain : dropWS cleaned.flatten = dropWS t := by
        rw [hcl, cleanSegs_flatten, expandLong_flatten, mergeShortSegments_flatten,
          splitIntoSentences_flatten, dropWS_normalize]
      cases hm : mergeShortSegments cfg cleaned with
      | nil =>
        simp [dropWS_normalize, dropWS_append, dropWS_nil]
      | cons r res =>
        have hms := mergeShortSegments_flatten cfg cleaned
        rw [hm] at hms
        show dropWS (r :: res).flatten = dropWS t
        rw [hms, hchain]

end Iara

namespace Iara

/-! ### Segment length-bound analysis -/

theorem length_pyStrip_le (t : Text) : (pyStrip t).length ≤ t.length := by
  have h1 : (stripL t).length ≤ t.length := (List.dropWhile_sublist isWS).length_le
  have h2 : (stripR (stripL t)).length ≤ (stripL t).length := by
    have := (List.dropWhile_sublist isWS (l := (stripL t).reverse)).length_le
    simpa [stripR] using this
  exact le_trans h2 h1

theorem pyWords_single (w : Text) (h : WFword w) : pyWords w = [w] := by
  have := pyWords_joinSpace [w] (by intro x hx; simp at hx; subst hx; exact h)
  simpa [joinSpace] using this

theorem okUnit_pyStrip (cfg : SegConfig) (s : Text) (h : okUnit cfg s) :
    okUnit cfg (pyStrip s) := by
  rcases h with ⟨hlen, hw⟩ | ⟨h1, _⟩
  · exact Or.inl ⟨le_trans (length_pyStrip_le s) hlen, by rw [pyWords_pyStrip]; exact hw⟩
  · by_cases hwb : withinBounds cfg (pyStrip s)
    · exact Or.inl hwb
    · exact Or.inr ⟨by rw [pyWords_pyStrip]; exact h1, hwb⟩

theorem emit_okUnit (cfg : SegConfig) (cur : List Text) (hne : cur ≠ [])
    (hwf : ∀ w ∈ cur, WFword w)
    (hinv : (∃ w, cur = [w]) ∨
      ((joinSpace cur).length ≤ cfg.maxChars ∧ cur.length ≤ cfg.maxWords)) :
    okUnit cfg (pyStrip (joinSpace cur)) := by
  rw [pyStrip_joinSpace cur hne hwf]
  rcases hinv with ⟨w, hw⟩ | ⟨hlen, hcount⟩
  · subst hw
    have hsingle : (pyWords (joinSpace [w])).length = 1 := by
      rw [pyWords_joinSpace _ hwf]
      rfl
    by_cases hwb : withinBounds cfg (joinSpace [w])
    · exact Or.inl hwb
    · exact Or.inr ⟨hsingle, hwb⟩
  · refine Or.inl ⟨hlen, ?_⟩
    rw [pyWords_joinSpace cur hwf]
    exact hcount

theorem chunkAux_okUnit (cfg : SegConfig) (ws : List Text) : ∀ cur : List Text,
    (∀ w ∈ ws, WFword w) → (∀ w ∈ cur, WFword w) →
    (cur = [] ∨ (∃ w, cur = [w]) ∨
      ((joinSpace cur).length ≤ cfg.maxChars ∧ cur.length ≤ cfg.maxWords)) →
    ∀ s ∈ chunkAux cfg ws cur, okUnit cfg s := by
  induction ws with
  | nil =>
    intro cur _ hcur hinv s hs
    by_cases hc : cur = []
    · simp [chunkAux, hc] at hs
    · simp [chunkAux, hc] at hs
      subst hs
      exact emit_okUnit cfg cur hc hcur (hinv.resolve_left hc)
  | cons w rest ih =>
    intro cur hws hcur hinv s hs
    have hw : WFword w := hws w (List.mem_cons_self w rest)
    have hrest : ∀ x ∈ rest, WFword x := fun x hx => hws x (List.mem_cons_of_mem w hx)
    have hsingleW : ∀ x ∈ [w], WFword x := by
      intro x hx; simp at hx; subst hx; exact hw
    by_cases hc : cur = []
    · subst hc
      simp only [chunkAux, if_pos rfl] at hs
      exact ih [w] hrest hsingleW (Or.inr (Or.inl ⟨w, rfl⟩)) s hs
    · by_cases hclose : ((joinSpace (cur ++ [w])).length > cfg.maxChars
          || cur.length + 1 > cfg.maxWords) = true
      · simp only [chunkAux, hc, hclose, if_neg, ite_true, ite_false] at hs
        rcases List.mem_cons.mp hs with h1 | h2
        · subst h1
          exact emit_okUnit cfg cur hc hcur (hinv.resolve_left hc)
        · exact ih [w] hrest hsingleW (Or.inr (Or.inl ⟨w, rfl⟩)) s h2
      · have hbounds : (joinSpace (cur ++ [w])).length ≤ cfg.maxChars ∧
            cur.length + 1 ≤ cfg.maxWords := by
          simp only [Bool.or_eq_true, decide_eq_true_eq] at hclose
          push_neg at hclose
          omega
        have hcurw : ∀ x ∈ cur ++ [w], WFword x := by
          intro x hx
          rcases List.mem_append.mp hx with h1 | h2
          · exact hcur x h1
          · simp at h2; subst h2; exact hw
        by_cases hsoft : ((joinSpace (cur ++ [w])).length ≥ cfg.minChars
            && endsSoftBreak w) = true
        · simp only [chunkAux, hc, hclose, hsoft, if_neg, ite_true, ite_false] at hs
          rcases List.mem_cons.mp hs with h1 | h2
          · subst h1
            exact emit_okUnit cfg (cur ++ [w]) (by simp) hcurw
              (Or.inr ⟨hbounds.1, by simpa using hbounds.2⟩)
          · exact ih [] hrest (by simp) (Or.inl rfl) s h2
        · simp only [chunkAux, hc, hclose, hsoft, if_neg, ite_false] at hs
          exact ih (cur ++ [w]) hrest hcurw
            (Or.inr (Or.inr ⟨hbounds.1, by simpa using hbounds.2⟩)) s hs

theorem chunkByWords_okUnit (cfg : SegConfig) (t : Text) :
    ∀ s ∈ chunkByWords cfg t, okUnit cfg s := by
  cases h : pyWords t with
  | nil => simp [chunkByWords, h]
  | cons w ws2 =>
    intro s hs
    rw [chunkByWords, h] at hs
    have hwf : ∀ x ∈ (w :: ws2), WFword x := by
      rw [← h]; exact pyWords_WF t
    exact chunkAux_okUnit cfg (w :: ws2) [] hwf (by simp) (Or.inl rfl) s hs

theorem cleaned_okUnit (cfg : SegConfig) (merged : List Text) :
    ∀ s ∈ cleanSegs (expandLong cfg merged), okUnit cfg s := by
  intro s hs
  rw [cleanSegs, List.mem_filterMap] at hs
  obtain ⟨e, he, hse⟩ := hs
  have hs2 : s = pyStrip e := by
    by_cases hp : pyStrip e = []
    · simp [hp] at hse
    · simp only [if_neg hp] at hse
      exact (Option.some.injEq _ _ ▸ hse).symm
  rw [expandLong, List.mem_flatMap] at he
  obtain ⟨seg, _, he2⟩ := he
  by_cases hlong : isTooLongT cfg seg
  · rw [if_pos hlong] at he2
    exact hs2 ▸ okUnit_pyStrip cfg e (chunkByWords_okUnit cfg seg e he2)
  · rw [if_neg hlong] at he2
    simp at he2
    subst he2
    have hwithin : withinBounds cfg e := by
      simp only [isTooLongT, Bool.or_eq_true, decide_eq_true_eq] at hlong
      push_neg at hlong
      exact ⟨by omega, by omega⟩
    exact hs2 ▸ okUnit_pyStrip cfg e (Or.inl hwithin)

theorem mergeShortAux_shortMerge (cfg : SegConfig) (P : Text → Prop)
    (segs : List Text) : ∀ b : Text, (∀ s ∈ segs, P s) →
    (b = [] ∨ ShortMerge cfg P b) →
    ∀ s ∈ mergeShortAux cfg segs b, ShortMerge cfg P s := by
  induction segs with
  | nil =>
    intro b _ hb s hs
    by_cases hbe : b = []
    · simp [mergeShortAux, hbe] at hs
    · simp [mergeShortAux, hbe] at hs
      subst hs
      exact hb.resolve_left hbe
  | cons x rest ih =>
    intro b hsegs hb s hs
    have hx : P x := hsegs x (List.mem_cons_self x rest)
    have hrest : ∀ y ∈ rest, P y := fun y hy => hsegs y (List.mem_cons_of_mem x hy)
    by_cases hbe : b = []
    · subst hbe
      simp only [mergeShortAux, if_pos rfl] at hs
      exact ih x hrest (Or.inr (ShortMerge.base hx)) s hs
    · by_cases hshort : isTooShortT cfg b
      · simp only [mergeShortAux, hbe, hshort, if_neg, ite_true, ite_false] at hs
        exact ih _ hrest
          (Or.inr (ShortMerge.step (hb.resolve_left hbe) hshort hx)) s hs
      · simp only [mergeShortAux, hbe, hshort, if_neg, ite_false,
          Bool.not_eq_true] at hs
        rcases List.mem_cons.mp hs with h1 | h2
        · subst h1
          exact hb.resolve_left hbe
        · exact ih x hrest (Or.inr (ShortMerge.base hx)) s h2

end Iara

namespace Iara

theorem mem_merge_fallback (cfg : SegConfig) (cleaned : List Text)
    (normalized s : Text) (hclean : ∀ x ∈ cleaned, okUnit cfg x)
    (hne : dropWS cleaned.flatten ≠ [])
    (hs : s ∈ (match mergeShortSegments cfg cleaned with
               | [] => [normalized]
               | res => res)) :
    ShortMerge cfg (okUnit cfg) s := by
  cases hm : mergeShortSegments cfg cleaned with
  | nil =>
    exfalso
    have hms := mergeShortSegments_flatten cfg cleaned
    rw [hm] at hms
    exact hne hms.symm
  | cons r res =>
    have hs2 : s ∈ r :: res := by
      rw [hm] at hs
      exact hs
    refine mergeShortAux_shortMerge cfg (okUnit cfg) cleaned [] hclean (Or.inl rfl) s ?_
    show s ∈ mergeShortSegments cfg cleaned
    rw [hm]
    exact hs2

theorem splitTextForTTS_mem_shortMerge (cfg : SegConfig) (t : Text) :
    ∀ s ∈ splitTextForTTS cfg t, ShortMerge cfg (okUnit cfg) s := by
  intro s hs
  have hdwn : normalizeText t ≠ [] → dropWS (normalizeText t) ≠ [] := by
    intro h1 hdw
    apply h1
    have hc : dropWS (collapseWS t) = [] := by
      rw [← dropWS_pyStrip (collapseWS t)]
      exact hdw
    exact (pyStrip_eq_nil_iff_dropWS (collapseWS t)).mpr hc
  rw [splitTextForTTS] at hs
  by_cases h1 : normalizeText t = []
  · rw [if_pos h1] at hs
    simp at hs
  · rw [if_neg h1] at hs
    by_cases h2 : splitIntoSentences (normalizeText t) = []
    · exfalso
      have hfl := splitIntoSentences_flatten (normalizeText t)
      rw [h2] at hfl
      exact hdwn h1 hfl.symm
    · rw [if_neg h2] at hs
      refine mem_merge_fallback cfg _ _ s (cleaned_okUnit cfg _) ?_ hs
      rw [cleanSegs_flatten, expandLong_flatten, mergeShortSegments_flatten,
        splitIntoSentences_flatten]
      exact hdwn h1

end Iara

namespace Iara

theorem mergeShortAux_nil_append (cfg : SegConfig) (l : List Text) : ∀ b x : Text,
    x ≠ [] → mergeShortAux cfg l b = [] →
    mergeShortAux cfg (l ++ [x]) b = [x] := by
  induction l with
  | nil =>
    intro b x hx hnil
    by_cases hb : b = []
    · subst hb
      simp [mergeShortAux, hx]
    · simp [mergeShortAux, hb] at hnil
  | cons sg rest ih =>
    intro b x hx hnil
    by_cases hb : b = []
    · subst hb
      simp only [List.cons_append, mergeShortAux, if_pos rfl] at hnil ⊢
      exact ih sg x hx hnil
    · by_cases hshort : isTooShortT cfg b
      · simp only [List.cons_append, mergeShortAux, hb, hshort, if_neg,
          ite_true, ite_false] at hnil ⊢
        exact ih _ x hx hnil
      · simp [mergeShortAux, hb, hshort] at hnil

theorem mergeShortAux_append_last (cfg : SegConfig) (l : List Text) :
    ∀ b e x : Text, x ≠ [] →
    (mergeShortAux cfg l b).getLast? = some e → isTooShortT cfg e = false →
    mergeShortAux cfg (l ++ [x]) b = mergeShortAux cfg l b ++ [x] := by
  induction l with
  | nil =>
    intro b e x hx hlast hshort
    by_cases hb : b = []
    · subst hb
      simp [mergeShortAux] at hlast
    · have he : e = b := by
        simp [mergeShortAux, hb] at hlast
        exact hlast.symm
      subst he
      simp [mergeShortAux, hb, hshort, hx]
  | cons sg rest ih =>
    intro b e x hx hlast hshort
    by_cases hb : b = []
    · subst hb
      simp only [List.cons_append, mergeShortAux, if_pos rfl] at hlast ⊢
      exact ih sg e x hx hlast hshort
    · by_cases hbs : isTooShortT cfg b
      · simp only [List.cons_append, mergeShortAux, hb, hbs, if_neg, ite_true,
          ite_false] at hlast ⊢
        exact ih _ e x hx hlast hshort
      · simp only [List.cons_append, mergeShortAux, hb, hbs, if_neg, ite_false,
          Bool.not_eq_true] at hlast ⊢
        cases hM : mergeShortAux cfg rest sg with
        | nil =>
          rw [hM] at hlast
          have he : e = b := by simpa using hlast.symm
          subst he
          simp only [List.append_eq]
          rw [mergeShortAux_nil_append cfg rest sg x hx hM]
          simp
        | cons m ms =>
          rw [hM] at hlast
          rw [List.getLast?_cons_cons] at hlast
          have hstep := ih sg e x hx (by rw [hM]; exact hlast) hshort
          simp only [List.append_eq]
          rw [hstep, hM]

end Iara

namespace Iara

/-! ### Aggregator lemmas -/

theorem mergeOrBuffer_content (st : AggState) (s : Text) :
    dropWS (((mergeOrBuffer st s).1.elim [] id)
      ++ ((mergeOrBuffer st s).2.carry ++ (mergeOrBuffer st s).2.buffer))
      = dropWS (st.carry ++ (s ++ st.buffer)) := by
  have hsp : isWS ' ' = true := by decide
  by_cases hse : s = []
  · subst hse
    simp [mergeOrBuffer]
  · by_cases hc : st.carry = []
    · by_cases hshort : (pyWords s).length < st.minWords <;>
        simp [mergeOrBuffer, hse, hc, hshort, dropWS_append]
    · have hm : dropWS (pyStrip (st.carry ++ ' ' :: s))
          = dropWS st.carry ++ dropWS s := by
        rw [dropWS_pyStrip, dropWS_append, dropWS_cons_ws _ _ hsp]
      by_cases hshort :
          (pyWords (pyStrip (st.carry ++ ' ' :: s))).length < st.minWords <;>
        simp [mergeOrBuffer, hse, hc, hshort, dropWS_append, hm]

theorem mergeOrBuffer_buffer (st : AggState) (s : Text) :
    (mergeOrBuffer st s).2.buffer = st.buffer := by
  by_cases hse : s = []
  · simp [mergeOrBuffer, hse]
  · by_cases hc : st.carry = []
    · by_cases hshort : (pyWords s).length < st.minWords <;>
        simp [mergeOrBuffer, hse, hc, hshort]
    · by_cases hshort :
          (pyWords (pyStrip (st.carry ++ ' ' :: s))).length < st.minWords <;>
        simp [mergeOrBuffer, hse, hc, hshort]

theorem emitReadyAux_succ (eos : Text → Nat) (n : Nat) (st : AggState)
    (he : eos st.buffer ≠ 0) :
    emitReadyAux eos (n + 1) st =
      ((match (mergeOrBuffer { st with buffer := st.buffer.drop (eos st.buffer) }
          (pyStrip (st.buffer.take (eos st.buffer)))).1 with
        | some t => t :: (emitReadyAux eos n
            (mergeOrBuffer { st with buffer := st.buffer.drop (eos st.buffer) }
              (pyStrip (st.buffer.take (eos st.buffer)))).2).1
        | none => (emitReadyAux eos n
            (mergeOrBuffer { st with buffer := st.buffer.drop (eos st.buffer) }
              (pyStrip (st.buffer.take (eos st.buffer)))).2).1),
       (emitReadyAux eos n
          (mergeOrBuffer { st with buffer := st.buffer.drop (eos st.buffer) }
            (pyStrip (st.buffer.take (eos st.buffer)))).2).2) := by
  simp [emitReadyAux, popSentence, he]

theorem emitReadyAux_content (eos : Text → Nat) :
    ∀ (fuel : Nat) (st : AggState),
    dropWS ((emitReadyAux eos fuel st).1.flatten
      ++ ((emitReadyAux eos fuel st).2.carry ++ (emitReadyAux eos fuel st).2.buffer))
      = dropWS (st.carry ++ st.buffer) := by
  intro fuel
  induction fuel with
  | zero => intro st; rfl
  | succ n ih =>
    intro st
    by_cases he : eos st.buffer = 0
    · simp [emitReadyAux, popSentence, he]
    · rw [emitReadyAux_succ eos n st he]
      have hq := ih (mergeOrBuffer { st with buffer := st.buffer.drop (eos st.buffer) }
        (pyStrip (st.buffer.take (eos st.buffer)))).2
      have hp := mergeOrBuffer_content
        { st with buffer := st.buffer.drop (eos st.buffer) }
        (pyStrip (st.buffer.take (eos st.buffer)))
      have htake : dropWS (st.buffer.take (eos st.buffer))
          = dropWS (pyStrip (st.buffer.take (eos st.buffer))) := (dropWS_pyStrip _).symm
      have hbuf : dropWS st.buffer = dropWS (pyStrip (st.buffer.take (eos st.buffer)))
          ++ dropWS (st.buffer.drop (eos st.buffer)) := by
        conv_lhs => rw [← List.take_append_drop (eos st.buffer) st.buffer]
        rw [dropWS_append, htake]
      cases hp1 : (mergeOrBuffer { st with buffer := st.buffer.drop (eos st.buffer) }
          (pyStrip (st.buffer.take (eos st.buffer)))).1 with
      | none =>
        rw [hp1] at hp
        simp only [Option.elim, dropWS_nil, List.nil_append, dropWS_append,
          List.append_assoc] at hp
        simp only [dropWS_append, List.append_assoc] at hq ⊢
        rw [hq, hp, hbuf]
      | some m =>
        rw [hp1] at hp
        simp only [Option.elim, id_eq] at hp
        simp only [dropWS_append, List.append_assoc] at hp
        simp only [List.flatten_cons, dropWS_append, List.append_assoc] at hq ⊢
        rw [hq, hp, hbuf]

theorem emitReady_content (eos : Text → Nat) (st : AggState) :
    dropWS ((emitReady eos st).1.flatten
      ++ ((emitReady eos st).2.carry ++ (emitReady eos st).2.buffer))
      = dropWS (st.carry ++ st.buffer) :=
  emitReadyAux_content eos (st.buffer.length + 1) st

theorem flushRemaining_content (st : AggState) :
    dropWS (flushRemaining st).1.flatten = dropWS (st.carry ++ st.buffer)
      ∧ (flushRemaining st).2.carry = [] ∧ (flushRemaining st).2.buffer = [] := by
  have hsp : isWS ' ' = true := by decide
  refine ⟨?_, rfl, rfl⟩
  by_cases hc : st.carry = []
  · by_cases hr : pyStrip st.buffer = []
    · have hbn : dropWS st.buffer = [] := by rw [← dropWS_pyStrip, hr]; rfl
      simp [flushRemaining, hc, hr, hbn, dropWS_append, dropWS_nil]
    · simp [flushRemaining, hc, hr, dropWS_append, dropWS_pyStrip]
  · by_cases hr : pyStrip (st.carry ++ ' ' :: st.buffer) = []
    · have h0 : dropWS (st.carry ++ ' ' :: st.buffer) = [] := by
        rw [← dropWS_pyStrip, hr]; rfl
      rw [dropWS_append, dropWS_cons_ws _ _ hsp] at h0
      simp [flushRemaining, hc, hr, dropWS_append, dropWS_nil, h0]
    · simp [flushRemaining, hc, hr, dropWS_append, dropWS_pyStrip,
        dropWS_cons_ws _ _ hsp]

end Iara

namespace Iara

theorem textsOf_map_append (l : List Text) (f : AFrame) :
    textsOf (l.map OutFrame.textOut ++ [OutFrame.fwd f]) = l := by
  induction l with
  | nil => rfl
  | cons t rest ih =>
    simp only [List.map_cons, List.cons_append, textsOf, List.filterMap_cons] at ih ⊢
    rw [ih]

theorem emitReady_none (eos : Text → Nat) (st : AggState) (he : eos st.buffer = 0) :
    emitReady eos st = ([], st) := by
  simp [emitReady, emitReadyAux, popSentence, he]

theorem procEnd_spec (eos : Text → Nat) (st : AggState) (f : AFrame) :
    (procEnd eos st f).2.buffer = [] ∧ (procEnd eos st f).2.carry = [] ∧
    dropWS (textsOf (procEnd eos st f).1).flatten = dropWS (st.carry ++ st.buffer) := by
  by_cases hen : st.enabled
  · have hflush := flushRemaining_content (emitReady eos st).2
    have hready := emitReady_content eos st
    refine ⟨?_, ?_, ?_⟩
    · simp [procEnd, hen, flushRemaining]
    · simp [procEnd, hen, flushRemaining]
    · simp only [procEnd, hen, if_true, ite_true]
      rw [textsOf_map_append, List.flatten_append, dropWS_append, hflush.1]
      rw [dropWS_append] at hready ⊢
      rw [← hready, dropWS_append]
  · have hflush := flushRemaining_content st
    refine ⟨?_, ?_, ?_⟩
    · simp [procEnd, hen, flushRemaining]
    · simp [procEnd, hen, flushRemaining]
    · simp only [procEnd, hen, if_false, ite_false, Bool.false_eq_true]
      rw [textsOf_map_append]
      exact hflush.1

theorem procEnd_no_sentence (eos : Text → Nat) (st : AggState) (f : AFrame)
    (he : eos st.buffer = 0) :
    (procEnd eos st f).1 =
      (if pyStrip (if st.carry = [] then st.buffer else st.carry ++ ' ' :: st.buffer) = []
       then []
       else [OutFrame.textOut
         (pyStrip (if st.carry = [] then st.buffer else st.carry ++ ' ' :: st.buffer))])
      ++ [OutFrame.fwd f] := by
  by_cases hen : st.enabled
  · simp only [procEnd, hen, if_true, ite_true, emitReady_none eos st he]
    by_cases hc : st.carry = [] <;>
      by_cases hr : pyStrip (if st.carry = [] then st.buffer
        else st.carry ++ ' ' :: st.buffer) = [] <;>
      simp_all [flushRemaining]
  · simp only [procEnd, hen, if_false, ite_false, Bool.false_eq_true]
    by_cases hc : st.carry = [] <;>
      by_cases hr : pyStrip (if st.carry = [] then st.buffer
        else st.carry ++ ' ' :: st.buffer) = [] <;>
      simp_all [flushRemaining]

end Iara

namespace Iara

/-! ### Synthesis-loop lemmas -/

theorem emitChunks_frames_audio (env : TTSEnv) (e0 idx total : Nat) (txt : Text)
    (chunks : List (List Nat)) : ∀ c : Nat,
    ∀ f ∈ (emitChunks env e0 idx total txt chunks c).1, isAudioF f = true := by
  induction chunks with
  | nil => intro c f hf; simp [emitChunks] at hf
  | cons ch rest ih =>
    intro c f hf
    by_cases hc : env.epoch c ≠ e0
    · simp [emitChunks, hc] at hf
    · simp only [emitChunks, if_neg hc] at hf
      by_cases hch : ch = []
      · rw [if_pos hch] at hf
        exact ih (c + 1) f hf
      · rw [if_neg hch] at hf
        rcases List.mem_cons.mp hf with h1 | h2
        · subst h1; rfl
        · exact ih (c + 1) f h2

theorem segLoop_frames_audio (env : TTSEnv) (e0 total : Nat) (segs : List Text) :
    ∀ idx c csize : Nat,
    ∀ f ∈ (segLoop env e0 total segs idx c csize).1, isAudioF f = true := by
  induction segs with
  | nil => intro idx c csize f hf; simp [segLoop] at hf
  | cons seg rest ih =>
    intro idx c csize f hf
    by_cases hseg : seg = []
    · rw [segLoop, if_pos hseg] at hf
      exact ih (idx + 1) c csize f hf
    · rw [segLoop, if_neg hseg] at hf
      by_cases hc : env.epoch c ≠ e0
      · rw [if_pos hc] at hf
        simp at hf
      · rw [if_neg hc] at hf
        cases hg : env.gen idx with
        | err m => rw [hg] at hf; simp at hf
        | ok bytes =>
          rw [hg] at hf
          simp only [] at hf
          by_cases hc2 : env.epoch (c + 1) ≠ e0
          · rw [if_pos hc2] at hf
            simp at hf
          · rw [if_neg hc2] at hf
            by_cases hok : (emitChunks env e0 idx total seg
                (sliceChunks (csizeFor csize bytes) bytes) (c + 2)).2.2 = true
            · rw [if_pos hok] at hf
              simp only [List.mem_append] at hf
              rcases hf with h1 | h2
              · exact emitChunks_frames_audio env e0 idx total seg _ (c + 2) f h1
              · exact ih (idx + 1) _ _ f h2
            · rw [if_neg hok] at hf
              exact emitChunks_frames_audio env e0 idx total seg _ (c + 2) f hf

theorem audioFrames_wrap (fs tail : List TFrame)
    (hfs : ∀ f ∈ fs, isAudioF f = true) (htail : ∀ f ∈ tail, isAudioF f = false) :
    audioFrames (TFrame.started :: fs ++ tail) = fs := by
  have h2 : List.filter isAudioF fs = fs := List.filter_eq_self.mpr hfs
  have h3 : List.filter isAudioF tail = [] := List.filter_eq_nil_iff.mpr (by
    intro a ha
    simp [htail a ha])
  simp [audioFrames, List.filter_cons, h2, h3, isAudioF]

theorem emitChunks_cutoff (env : TTSEnv) (e0 idx total : Nat) (txt : Text)
    (chunks : List (List Nat)) : ∀ c : Nat,
    ((emitChunks env e0 idx total txt chunks c).2.2 = true →
      emitChunks env e0 idx total txt chunks c
        = emitChunks { env with epoch := fun _ => e0 } e0 idx total txt chunks c) ∧
    (emitChunks env e0 idx total txt chunks c).1
      <+: (emitChunks { env with epoch := fun _ => e0 } e0 idx total txt chunks c).1 := by
  induction chunks with
  | nil => intro c; exact ⟨fun _ => rfl, List.prefix_refl _⟩
  | cons ch rest ih =>
    intro c
    obtain ⟨ihEq, ihPre⟩ := ih (c + 1)
    by_cases hc : env.epoch c = e0
    · have hred : emitChunks env e0 idx total txt (ch :: rest) c =
          ((if ch = [] then (emitChunks env e0 idx total txt rest (c + 1)).1
            else TFrame.audio ch idx total txt ::
              (emitChunks env e0 idx total txt rest (c + 1)).1),
           (emitChunks env e0 idx total txt rest (c + 1)).2) := by
        rw [emitChunks, if_neg (not_not_intro hc)]
      have hredF : emitChunks { env with epoch := fun _ => e0 } e0 idx total txt
          (ch :: rest) c =
          ((if ch = [] then (emitChunks { env with epoch := fun _ => e0 }
              e0 idx total txt rest (c + 1)).1
            else TFrame.audio ch idx total txt ::
              (emitChunks { env with epoch := fun _ => e0 } e0 idx total txt rest (c + 1)).1),
           (emitChunks { env with epoch := fun _ => e0 } e0 idx total txt rest (c + 1)).2) := by
        rw [emitChunks, if_neg (not_not_intro rfl)]
      constructor
      · intro hok
        rw [hred] at hok ⊢
        rw [hredF]
        have heq := ihEq (by simpa using hok)
        rw [heq]
      · rw [hred, hredF]
        by_cases hch : ch = []
        · simpa [hch] using ihPre
        · simp only [if_neg hch]
          exact (List.prefix_cons_inj _).mpr ihPre
    · have hred : emitChunks env e0 idx total txt (ch :: rest) c = ([], c + 1, false) := by
        rw [emitChunks, if_pos hc]
      constructor
      · intro hok
        rw [hred] at hok
        simp at hok
      · rw [hred]
        exact List.nil_prefix

end Iara

namespace Iara

theorem segLoop_cons_empty (env : TTSEnv) (e0 total : Nat) (rest : List Text)
    (idx c csize : Nat) :
    segLoop env e0 total ([] :: rest) idx c csize
      = segLoop env e0 total rest (idx + 1) c csize := by
  rw [segLoop, if_pos rfl]

theorem segLoop_abort1 (env : TTSEnv) (e0 total : Nat) (seg : Text)
    (rest : List Text) (idx c csize : Nat) (hseg : seg ≠ [])
    (hc : env.epoch c ≠ e0) :
    segLoop env e0 total (seg :: rest) idx c csize = ([], .aborted) := by
  rw [segLoop, if_neg hseg, if_pos hc]

theorem segLoop_gen_err (env : TTSEnv) (e0 total : Nat) (seg : Text)
    (rest : List Text) (idx c csize : Nat) (m : String) (hseg : seg ≠ [])
    (hc : env.epoch c = e0) (hg : env.gen idx = .err m) :
    segLoop env e0 total (seg :: rest) idx c csize
      = ([], .failed ("Audio generation failed: " ++ m)) := by
  rw [segLoop, if_neg hseg, if_neg (not_not_intro hc), hg]

theorem segLoop_abort2 (env : TTSEnv) (e0 total : Nat) (seg : Text)
    (rest : List Text) (idx c csize : Nat) (bytes : List Nat) (hseg : seg ≠ [])
    (hc : env.epoch c = e0) (hg : env.gen idx = .ok bytes)
    (hc2 : env.epoch (c + 1) ≠ e0) :
    segLoop env e0 total (seg :: rest) idx c csize = ([], .aborted) := by
  rw [segLoop, if_neg hseg, if_neg (not_not_intro hc), hg]
  simp only []
  rw [if_pos hc2]

theorem segLoop_gen_ok (env : TTSEnv) (e0 total : Nat) (seg : Text)
    (rest : List Text) (idx c csize : Nat) (bytes : List Nat) (hseg : seg ≠ [])
    (hc : env.epoch c = e0) (hg : env.gen idx = .ok bytes)
    (hc2 : env.epoch (c + 1) = e0) :
    segLoop env e0 total (seg :: rest) idx c csize =
      (if (emitChunks env e0 idx total seg
            (sliceChunks (csizeFor csize bytes) bytes) (c + 2)).2.2 = true
       then ((emitChunks env e0 idx total seg
              (sliceChunks (csizeFor csize bytes) bytes) (c + 2)).1
            ++ (segLoop env e0 total rest (idx + 1)
                (emitChunks env e0 idx total seg
                  (sliceChunks (csizeFor csize bytes) bytes) (c + 2)).2.1
                (csizeFor csize bytes)).1,
            (segLoop env e0 total rest (idx + 1)
              (emitChunks env e0 idx total seg
                (sliceChunks (csizeFor csize bytes) bytes) (c + 2)).2.1
              (csizeFor csize bytes)).2)
       else ((emitChunks env e0 idx total seg
              (sliceChunks (csizeFor csize bytes) bytes) (c + 2)).1, .aborted)) := by
  rw [segLoop, if_neg hseg, if_neg (not_not_intro hc), hg]
  simp only []
  rw [if_neg (not_not_intro hc2)]

theorem segLoop_cutoff (env : TTSEnv) (e0 total : Nat) (segs : List Text) :
    ∀ idx c csize : Nat,
    ((segLoop env e0 total segs idx c csize).2 ≠ SegStatus.aborted →
      segLoop env e0 total segs idx c csize
        = segLoop { env with epoch := fun _ => e0 } e0 total segs idx c csize) ∧
    (segLoop env e0 total segs idx c csize).1
      <+: (segLoop { env with epoch := fun _ => e0 } e0 total segs idx c csize).1 := by
  induction segs with
  | nil => intro idx c csize; exact ⟨fun _ => rfl, List.prefix_refl _⟩
  | cons seg rest ih =>
    intro idx c csize
    by_cases hseg : seg = []
    · subst hseg
      rw [segLoop_cons_empty, segLoop_cons_empty]
      exact ih (idx + 1) c csize
    · by_cases hc : env.epoch c = e0
      · have hcF : ({ env with epoch := fun _ => e0 } : TTSEnv).epoch c = e0 := rfl
        cases hg : env.gen idx with
        | err m =>
          rw [segLoop_gen_err env e0 total seg rest idx c csize m hseg hc hg,
            segLoop_gen_err { env with epoch := fun _ => e0 } e0 total seg rest idx c
              csize m hseg hcF hg]
          exact ⟨fun _ => rfl, List.prefix_refl _⟩
        | ok bytes =>
          by_cases hc2 : env.epoch (c + 1) = e0
          · rw [segLoop_gen_ok env e0 total seg rest idx c csize bytes hseg hc hg hc2,
              segLoop_gen_ok { env with epoch := fun _ => e0 } e0 total seg rest idx c
                csize bytes hseg hcF hg rfl]
            obtain ⟨pEq, pPre⟩ :=
              emitChunks_cutoff env e0 idx total seg
                (sliceChunks (csizeFor csize bytes) bytes) (c + 2)
            by_cases hok : (emitChunks env e0 idx total seg
                (sliceChunks (csizeFor csize bytes) bytes) (c + 2)).2.2 = true
            · have hpf := pEq hok
              rw [if_pos hok, if_pos (by rw [← hpf]; exact hok), ← hpf]
              obtain ⟨qEq, qPre⟩ := ih (idx + 1)
                (emitChunks env e0 idx total seg
                  (sliceChunks (csizeFor csize bytes) bytes) (c + 2)).2.1
                (csizeFor csize bytes)
              constructor
              · intro hna
                simp only [] at hna
                rw [qEq hna]
              · simp only []
                exact (List.prefix_append_right_inj _).mpr qPre
            · rw [if_neg hok]
              constructor
              · intro hna
                simp at hna
              · simp only []
                by_cases hokF : (emitChunks { env with epoch := fun _ => e0 } e0 idx
                    total seg (sliceChunks (csizeFor csize bytes) bytes) (c + 2)).2.2 = true
                · rw [if_pos hokF]
                  exact pPre.trans (List.prefix_append _ _)
                · rw [if_neg hokF]
                  exact pPre
          · rw [segLoop_abort2 env e0 total seg rest idx c csize bytes hseg hc hg hc2]
            exact ⟨fun hna => absurd rfl hna, List.nil_prefix⟩
      · rw [segLoop_abort1 env e0 total seg rest idx c csize hseg hc]
        exact ⟨fun hna => absurd rfl hna, List.nil_prefix⟩

end Iara

namespace Iara

/-! ### Supervisor lemmas -/

theorem readLoop_reset (cmd : Command) (events : List (Nat × ReadEvent)) :
    ∀ (rem : Nat) (s : SvcState),
    ((readLoop cmd events rem s).1 = .errTimeout ∨
      (readLoop cmd events rem s).1 = .errDied) →
    (readLoop cmd events rem s).2 = resetWorkerState s := by
  induction events with
  | nil =>
    intro rem s _
    cases rem <;> rfl
  | cons ev rest ih =>
    intro rem s h
    obtain ⟨cost, e⟩ := ev
    cases rem with
    | zero => rfl
    | succ n =>
      cases e with
      | notReady => exact ih (n + 1 - cost) s h
      | emptyLine procDead =>
        cases procDead with
        | true => rfl
        | false =>
          rw [show readLoop cmd ((cost, ReadEvent.emptyLine false) :: rest) (n + 1) s
            = (.errNoResponse, s) from rfl] at h
          simp at h
      | junkLine => exact ih (n + 1 - cost) s h
      | jsonResp succ hasAudio =>
        by_cases hcont : (cmd.cmd = "generate".data && succ && !hasAudio) = true
        · have hred : readLoop cmd ((cost, ReadEvent.jsonResp succ hasAudio) :: rest)
              (n + 1) s = readLoop cmd rest (n + 1 - cost) s := by
            rw [readLoop, if_pos hcont]
          rw [hred] at h ⊢
          exact ih (n + 1 - cost) s h
        · have hred : readLoop cmd ((cost, ReadEvent.jsonResp succ hasAudio) :: rest)
              (n + 1) s = (.resp succ hasAudio, s) := by
            rw [readLoop, if_neg hcont]
          rw [hred] at h
          simp at h

end Iara

namespace Iara

/-! ### Claim theorems -/

/-- C9: after a `StartInterruptionFrame` or `CancelFrame` the aggregator's
buffer and carry are empty and nothing is flushed at the reset itself
(the only output is the forwarded frame); the subsequent behaviour is
independent of whatever text was buffered before the reset, so that text
is never emitted afterwards, even at a later end-of-response. -/
theorem aggregator_reset_on_interrupt (eos : Text → Nat) (st : AggState)
    (f : AFrame) (hf : f = AFrame.startInterruption ∨ f = AFrame.cancel) :
    processFrame eos st f = ([.fwd f], resetSt st) ∧
    (resetSt st).buffer = [] ∧ (resetSt st).carry = [] ∧
    (∀ (rest : List AFrame) (B C : Text) (g : Bool),
      runAgg eos (resetSt { st with buffer := B, carry := C, started := g }) rest
        = runAgg eos (resetSt st) rest) := by
  rcases hf with hf | hf <;> subst hf <;>
    exact ⟨rfl, rfl, rfl, fun rest B C g => rfl⟩

/-- Witness for C9: a concrete cancel with pending buffered text forwards
only the cancel frame and fully clears the state. -/
theorem aggregator_reset_on_interrupt_witness :
    processFrame matchEOS
      { enabled := true, minWords := 3, buffer := ("abc").data,
        carry := ("x.").data, started := true } AFrame.cancel
      = ([.fwd AFrame.cancel],
         resetSt
           { enabled := true, minWords := 3, buffer := ("abc").data,
             carry := ("x.").data, started := true }) :=
  (aggregator_reset_on_interrupt matchEOS
    { enabled := true, minWords := 3, buffer := ("abc").data,
      carry := ("x.").data, started := true } AFrame.cancel (Or.inr rfl)).1

theorem bracket_tail (l : List TFrame) (st : SegStatus) :
    (TFrame.started :: (l ++ (match st with
      | SegStatus.failed m => [TFrame.errorF m, TFrame.stopped]
      | _ => [TFrame.stopped]))).getLast? = some TFrame.stopped := by
  cases st with
  | done =>
    rw [← List.cons_append, List.getLast?_concat]
  | aborted =>
    rw [← List.cons_append, List.getLast?_concat]
  | failed m =>
    rw [show (match SegStatus.failed m with
        | SegStatus.failed m => [TFrame.errorF m, TFrame.stopped]
        | _ => [TFrame.stopped]) = [TFrame.errorF m] ++ [TFrame.stopped] from rfl,
      ← List.append_assoc, ← List.cons_append, List.getLast?_concat]

/-- C10: every `run_tts` invocation yields `TTSStartedFrame` as its first
frame and `TTSStoppedFrame` as its last frame, in every outcome —
success, initialisation failure, generation error (`ErrorFrame` before
the stop frame), and silent epoch-mismatch abandonment. -/
theorem run_tts_frame_bracketing (cfg : SegConfig) (env : TTSEnv) (e0 : Nat)
    (streaming : Bool) (text : Text) (csize : Nat) :
    (runTTS cfg env e0 streaming text csize).head? = some TFrame.started ∧
    (runTTS cfg env e0 streaming text csize).getLast? = some TFrame.stopped := by
  constructor
  · rfl
  · rw [runTTS]
    by_cases hinit : env.initOk = true
    · rw [if_neg (by simp [hinit])]
      by_cases hc : env.epoch 0 ≠ e0
      · rw [if_pos hc]
        rfl
      · rw [if_neg hc]
        exact bracket_tail _ _
    · rw [if_pos (by simp [Bool.not_eq_true] at hinit ⊢; exact hinit)]
      rfl

/-- C8 counterexample: with the default minimum of three words, a
two-element unit list whose trailing unit is short is returned unchanged
by `_merge_short_segments` — the still-short trailing unit remains a
standalone final element instead of being concatenated onto its
predecessor. -/
theorem merge_short_tail_cex :
    mergeShortSegments ⟨20, 3, 220, 40⟩ [("aa bb cc").data, ("x").data]
      = [("aa bb cc").data, ("x").data]
    ∧ isTooShortT ⟨20, 3, 220, 40⟩ (("x").data) = true
    ∧ (mergeShortSegments ⟨20, 3, 220, 40⟩
        [("aa bb cc").data, ("x").data]).getLast? = some (("x").data) := by
  decide

/-- C8 (amended): the merge pass performs no backward merge of a short
trailing unit: whenever the output so far ends in a unit that is not
short, appending a further unit `x` — in particular a short one — leaves
`x` as the standalone last element of the result. -/
theorem merge_short_tail_amended (cfg : SegConfig) (l : List Text) (e x : Text)
    (hx : x ≠ []) (hlast : (mergeShortSegments cfg l).getLast? = some e)
    (hshort : isTooShortT cfg e = false) :
    mergeShortSegments cfg (l ++ [x]) = mergeShortSegments cfg l ++ [x] :=
  mergeShortAux_append_last cfg l [] e x hx hlast hshort

/-- Witness for C8's amended statement at a concrete pair of units. -/
theorem merge_short_tail_witness :
    mergeShortSegments ⟨20, 3, 220, 40⟩ ([("aa bb cc").data] ++ [("x").data])
      = mergeShortSegments ⟨20, 3, 220, 40⟩ [("aa bb cc").data] ++ [("x").data] :=
  merge_short_tail_amended ⟨20, 3, 220, 40⟩ [("aa bb cc").data]
    (("aa bb cc").data) (("x").data) (by decide) (by decide) (by decide)

end Iara

namespace Iara

/-- C4 counterexample: two Qwen configurations that differ in the
voice/speaker component (they could equally differ in language or
extended settings) build the same signature, hence their commands are
routed to the same registry entry — contradicting "if any of those
components differ, they never share a worker process". -/
theorem worker_signature_cex :
    buildSignature (("mlx-community/Qwen3-TTS-0.6B").data)
        (some (("af_heart").data)) none 24000 []
      = buildSignature (("mlx-community/Qwen3-TTS-0.6B").data)
        (some (("other").data)) none 24000 []
    ∧ (some (("af_heart").data) : Option Text) ≠ some (("other").data)
    ∧ ∀ (reg : Registry) (fresh : Nat),
        getSharedState reg (buildSignature (("mlx-community/Qwen3-TTS-0.6B").data)
          (some (("af_heart").data)) none 24000 []) fresh
        = getSharedState reg (buildSignature (("mlx-community/Qwen3-TTS-0.6B").data)
          (some (("other").data)) none 24000 []) fresh := by
  refine ⟨by decide, by decide, ?_⟩
  intro reg fresh
  rw [show buildSignature (("mlx-community/Qwen3-TTS-0.6B").data)
      (some (("af_heart").data)) none 24000 []
    = buildSignature (("mlx-community/Qwen3-TTS-0.6B").data)
      (some (("other").data)) none 24000 [] by decide]

/-- C4 (amended): configurations agreeing on every signature component
always build the same signature and hence route to the same registry
entry; for non-Qwen backends a differing component always yields a
different signature (no sharing); for Qwen backends (model starting with
`mlx-community/Qwen3-TTS-`) the signature deliberately keeps only the
model and sample rate, so instances differing merely in voice, language
or extended settings still share one worker; distinct signatures never
alias in the registry (creating one key's entry leaves other keys
unchanged). -/
theorem worker_signature_sharing_amended :
    (∀ (m : Text) (v1 v2 l1 l2 : Option Text) (r : Nat)
        (s1 s2 : List (Text × Text)), qwenPre.isPrefixOf m = true →
      buildSignature m v1 l1 r s1 = buildSignature m v2 l2 r s2) ∧
    (∀ (m1 m2 : Text) (v1 v2 l1 l2 : Option Text) (r1 r2 : Nat)
        (s1 s2 : List (Text × Text)),
      qwenPre.isPrefixOf m1 = false → qwenPre.isPrefixOf m2 = false →
      buildSignature m1 v1 l1 r1 s1 = buildSignature m2 v2 l2 r2 s2 →
      m1 = m2 ∧ v1 = v2 ∧ l1 = l2 ∧ r1 = r2 ∧ s1 = s2) ∧
    (∀ (sig1 sig2 : Signature) (reg : Registry) (fresh : Nat), sig1 = sig2 →
      getSharedState reg sig1 fresh = getSharedState reg sig2 fresh) ∧
    (∀ (reg : Registry) (sig1 sig2 : Signature) (fresh : Nat), sig1 ≠ sig2 →
      (getSharedState reg sig1 fresh).2 sig2 = reg sig2) := by
  refine ⟨?_, ?_, ?_, ?_⟩
  · intro m v1 v2 l1 l2 r s1 s2 h
    simp [buildSignature, h]
  · intro m1 m2 v1 v2 l1 l2 r1 r2 s1 s2 h1 h2 heq
    simp [buildSignature, h1, h2, Signature.full.injEq] at heq
    exact ⟨heq.1, heq.2.1, heq.2.2.1, heq.2.2.2.1, heq.2.2.2.2⟩
  · intro sig1 sig2 reg fresh h
    rw [h]
  · intro reg sig1 sig2 fresh hne
    rw [getSharedState]
    cases hreg : reg sig1 with
    | some entry => rfl
    | none =>
      simp only []
      rw [if_neg (Ne.symm hne)]

/-- Witness for C4's amended statement: equal-component sharing for a
Qwen model whose non-key components differ. -/
theorem worker_signature_sharing_witness :
    buildSignature (("mlx-community/Qwen3-TTS-0.6B").data) (some (("a").data))
        none 24000 []
      = buildSignature (("mlx-community/Qwen3-TTS-0.6B").data) (some (("b").data))
        (some (("en").data)) 24000 [(("seed").data, ("7").data)] :=
  worker_signature_sharing_amended.1 (("mlx-community/Qwen3-TTS-0.6B").data)
    (some (("a").data)) (some (("b").data)) none (some (("en").data)) 24000 []
    [(("seed").data, ("7").data)] (by decide)

end Iara

namespace Iara

/-- C5: a `_send_command` call that ends in a response timeout or that
detects the worker process dead leaves the shared registry state for the
signature with its process handle `None` and its `initialized` flag
`False`, returns an error result to the caller, and a subsequent call
for the same signature starts a fresh process: with the handle cleared,
`_start_worker` spawns a new process (never reuses) and the call runs
against the newly spawned state. -/
theorem send_command_crash_recovery (env : SupEnv) (cmd : Command)
    (events : List (Nat × ReadEvent)) (s : SvcState)
    (h : (sendCommand env cmd events s).1 = .errTimeout ∨
         (sendCommand env cmd events s).1 = .errDied) :
    (sendCommand env cmd events s).2.shProcess = none ∧
    (sendCommand env cmd events s).2.shInitialized = false ∧
    (sendCommand env cmd events s).2.selfProcess = none ∧
    (sendCommand env cmd events s).1.isErr = true ∧
    (∀ (env2 : SupEnv) (cmd2 : Command) (events2 : List (Nat × ReadEvent)),
      env2.spawnOk = true →
      startWorker env2 (sendCommand env cmd events s).2
        = (true, spawnedState env2 (sendCommand env cmd events s).2) ∧
      (spawnedState env2 (sendCommand env cmd events s).2).shProcess
        = some env2.freshPid ∧
      sendCommand env2 cmd2 events2 (sendCommand env cmd events s).2
        = readLoop cmd2 events2 (cmdBudget cmd2)
            (spawnedState env2 (sendCommand env cmd events s).2)) := by
  have hreset : (sendCommand env cmd events s).2 = resetWorkerState s := by
    rw [sendCommand] at h ⊢
    by_cases hns : (match s.selfProcess with
        | none => true
        | some p => !env.alive p) = true
    · rw [if_pos hns] at h ⊢
      by_cases hst : (startWorker env s).1 = true
      · rw [if_neg (by simp [hst])] at h ⊢
        exact readLoop_reset cmd events _ _ h
      · rw [if_pos (by simp [Bool.not_eq_true] at hst ⊢; exact hst)] at h
        simp at h
    · rw [if_neg hns] at h ⊢
      exact readLoop_reset cmd events _ _ h
  have hErr : (sendCommand env cmd events s).1.isErr = true := by
    rcases h with h | h <;> rw [h] <;> rfl
  refine ⟨by rw [hreset]; rfl, by rw [hreset]; rfl, by rw [hreset]; rfl, hErr, ?_⟩
  intro env2 cmd2 events2 hspawn
  rw [hreset]
  refine ⟨?_, rfl, ?_⟩
  · rw [startWorker]
    simp only [resetWorkerState]
    rw [if_pos hspawn]
  · rw [sendCommand]
    simp only [resetWorkerState]
    rw [startWorker]
    simp only []
    rw [if_pos hspawn]
    rfl

/-- Witness for C5: an exhausted event stream (the deadline passes with
no response) yields a timeout error and a cleared registry entry. -/
theorem send_command_crash_recovery_witness :
    (sendCommand ⟨fun _ => true, true, 7⟩ ⟨("generate").data, [], false, false⟩ []
      ⟨some 1, true, some 1, true⟩).2.shProcess = none
    ∧ (sendCommand ⟨fun _ => true, true, 7⟩ ⟨("generate").data, [], false, false⟩ []
      ⟨some 1, true, some 1, true⟩).1.isErr = true :=
  have h := send_command_crash_recovery ⟨fun _ => true, true, 7⟩
    ⟨("generate").data, [], false, false⟩ [] ⟨some 1, true, some 1, true⟩
    (Or.inl (by decide))
  ⟨h.1, h.2.2.2.1⟩

end Iara

namespace Iara

/-- C6 counterexample: a `CancelFrame` arriving while a short carry
("OK.") is pending emits no text frame at all — the aggregator resets —
contradicting the claim that a cancellation flushes the pending carry as
a text frame. -/
theorem aggregator_flush_cex :
    (⟨true, 3, [], ("OK.").data, true⟩ : AggState).carry ≠ []
    ∧ (processFrame matchEOS (⟨true, 3, [], ("OK.").data, true⟩ : AggState)
        AFrame.cancel).1 = [OutFrame.fwd AFrame.cancel] := by
  decide

/-- C6 (amended): at an end-of-response frame (`LLMFullResponseEndFrame`
or `EndFrame`) — but not at a cancellation, which resets without
flushing — the aggregator ends with empty buffer and carry and the text
frames it emits carry exactly the pending content, carry first: their
concatenation equals, after whitespace removal, the pending carry
followed by the buffer, with no minimum-word-count condition; when no
complete sentence is pending (`eos buffer = 0`) the flush is a single
text frame holding the carry and any unterminated tail joined by one
separating space, followed by the forwarded end frame. -/
theorem aggregator_flush_on_end (eos : Text → Nat) (st : AggState) (f : AFrame)
    (hf : f = AFrame.respEnd ∨ f = AFrame.endFrame) :
    (processFrame eos st f).2.buffer = [] ∧
    (processFrame eos st f).2.carry = [] ∧
    dropWS (textsOf (processFrame eos st f).1).flatten
      = dropWS (st.carry ++ st.buffer) ∧
    (eos st.buffer = 0 →
      (processFrame eos st f).1 =
        (if pyStrip (if st.carry = [] then st.buffer
            else st.carry ++ ' ' :: st.buffer) = []
         then []
         else [OutFrame.textOut (pyStrip (if st.carry = [] then st.buffer
            else st.carry ++ ' ' :: st.buffer))]) ++ [OutFrame.fwd f]) := by
  have hpf : processFrame eos st f = procEnd eos st f := by
    rcases hf with hf | hf <;> subst hf <;> rfl
  rw [hpf]
  obtain ⟨h1, h2, h3⟩ := procEnd_spec eos st f
  exact ⟨h1, h2, h3, fun he => procEnd_no_sentence eos st f he⟩

/-- Witness for C6's amended statement: the short carry "OK." with an
empty buffer is flushed verbatim as one text frame at end-of-response. -/
theorem aggregator_flush_on_end_witness :
    (processFrame matchEOS (⟨true, 3, [], ("OK.").data, true⟩ : AggState)
        AFrame.respEnd).1
      = [OutFrame.textOut (("OK.").data), OutFrame.fwd AFrame.respEnd] := by
  have h := (aggregator_flush_on_end matchEOS
    (⟨true, 3, [], ("OK.").data, true⟩ : AggState) AFrame.respEnd
    (Or.inl rfl)).2.2.2 (by decide)
  rw [h]
  decide

end Iara

namespace Iara

/-- C7: for every popped complete sentence, a non-empty carry is
prepended with a single separating space and cleared before the
word-count test; if the merged result's word count is below the minimum
it becomes the new carry and nothing is emitted, otherwise it is emitted
immediately; in particular the fragment stream forming
"Hi. Let[']s talk about the weather today." with minimum word count 3
emits exactly that one sentence (the 1-word "Hi." is carried and merged,
not emitted alone). -/
theorem aggregator_carry_merge :
    (∀ (st : AggState) (s : Text), s ≠ [] → st.carry ≠ [] →
      mergeOrBuffer st s =
        (if (pyWords (pyStrip (st.carry ++ ' ' :: s))).length < st.minWords
         then (none, { st with carry := pyStrip (st.carry ++ ' ' :: s) })
         else (some (pyStrip (st.carry ++ ' ' :: s)), { st with carry := [] }))) ∧
    (∀ (st : AggState) (s : Text), s ≠ [] → st.carry = [] →
      mergeOrBuffer st s =
        (if (pyWords s).length < st.minWords
         then (none, { st with carry := s })
         else (some s, { st with carry := [] }))) ∧
    (runAgg matchEOS (⟨true, 3, [], [], false⟩ : AggState)
        [AFrame.respStart, AFrame.textF (("Hi. ").data),
         AFrame.textF ((("Let").data) ++ Char.ofNat 39 :: ("s talk about ").data),
         AFrame.textF (("the weather today.").data), AFrame.respEnd]).1
      = [OutFrame.fwd AFrame.respStart,
         OutFrame.textOut ((("Hi. Let").data) ++ Char.ofNat 39 ::
           ("s talk about the weather today.").data),
         OutFrame.fwd AFrame.respEnd] := by
  refine ⟨?_, ?_, ?_⟩
  · intro st s hs hc
    rw [mergeOrBuffer, if_neg hs]
    simp only [if_neg hc]
  · intro st s hs hc
    rw [mergeOrBuffer, if_neg hs]
    simp only [if_pos hc]
  · decide

/-- Witness for C7 at a concrete merge: a pending carry "Hi." is
prepended and the merged sentence, reaching the minimum, is emitted with
the carry cleared. -/
theorem aggregator_carry_merge_witness :
    mergeOrBuffer (⟨true, 3, [], ("Hi.").data, true⟩ : AggState)
        (("We are fine.").data)
      = (if (pyWords (pyStrip ((("Hi.").data) ++ ' ' :: ("We are fine.").data))).length
            < (⟨true, 3, [], ("Hi.").data, true⟩ : AggState).minWords
         then (none, { (⟨true, 3, [], ("Hi.").data, true⟩ : AggState) with
           carry := pyStrip ((("Hi.").data) ++ ' ' :: ("We are fine.").data) })
         else (some (pyStrip ((("Hi.").data) ++ ' ' :: ("We are fine.").data)),
           { (⟨true, 3, [], ("Hi.").data, true⟩ : AggState) with carry := [] })) :=
  aggregator_carry_merge.1 (⟨true, 3, [], ("Hi.").data, true⟩ : AggState)
    (("We are fine.").data) (by decide) (by decide)

end Iara

namespace Iara

theorem bracket_tail_no_audio (st : SegStatus) :
    ∀ f ∈ (match st with
      | SegStatus.failed m => [TFrame.errorF m, TFrame.stopped]
      | _ => [TFrame.stopped]), isAudioF f = false := by
  cases st with
  | done =>
    intro f hf
    simp at hf
    subst hf
    rfl
  | aborted =>
    intro f hf
    simp at hf
    subst hf
    rfl
  | failed m =>
    intro f hf
    simp at hf
    rcases hf with hf | hf <;> subst hf <;> rfl

theorem runTTS_main (cfg : SegConfig) (env : TTSEnv) (e0 : Nat) (streaming : Bool)
    (text : Text) (csize : Nat) (segs : List Text)
    (hsegs : segs = (if (if streaming then splitTextForTTS cfg text else [text]) = []
      then [text] else (if streaming then splitTextForTTS cfg text else [text])))
    (hinit : env.initOk = true) (hc0 : env.epoch 0 = e0) :
    runTTS cfg env e0 streaming text csize =
      TFrame.started :: ((segLoop env e0 segs.length segs 0 1 csize).1 ++
        (match (segLoop env e0 segs.length segs 0 1 csize).2 with
         | SegStatus.failed m => [TFrame.errorF m, TFrame.stopped]
         | _ => [TFrame.stopped])) := by
  subst hsegs
  rw [runTTS, if_neg (by simp [hinit]), if_neg (not_not_intro hc0)]

end Iara


namespace Iara

theorem audioFrames_runmain (env : TTSEnv) (e0 L : Nat) (S : List Text)
    (csize : Nat) :
    audioFrames (TFrame.started :: ((segLoop env e0 L S 0 1 csize).1 ++
      (match (segLoop env e0 L S 0 1 csize).2 with
       | SegStatus.failed m => [TFrame.errorF m, TFrame.stopped]
       | _ => [TFrame.stopped]))) = (segLoop env e0 L S 0 1 csize).1 :=
  audioFrames_wrap _ _ (segLoop_frames_audio env e0 L S 0 1 csize)
    (bracket_tail_no_audio _)

/-- C3: interruption abandonment.  General part: when the epoch oracle is
a cutoff (it equals the captured value exactly at check indices below
`K`, as the monotone `_interrupt_id` guarantees), the audio frames of the
invocation form a prefix of those of the uninterrupted invocation —
nothing further is emitted once a check observes a mismatch — and every
`ErrorFrame` the invocation emits would also be emitted without
interruption, so an observed mismatch aborts silently.  Concrete part:
incrementing the epoch after segment 1 of a 3-segment utterance has
emitted its audio yields exactly a started frame, segment 1's audio and
a stopped frame — no audio frames for segments 2 and 3 and no error —
even though the worker returns valid audio for them. -/
theorem run_tts_interrupt_abandonment :
    (∀ (cfg : SegConfig) (env : TTSEnv) (e0 : Nat) (streaming : Bool)
        (text : Text) (csize K : Nat), (∀ j, env.epoch j = e0 ↔ j < K) →
      audioFrames (runTTS cfg env e0 streaming text csize)
        <+: audioFrames (runTTS cfg { env with epoch := fun _ => e0 } e0
          streaming text csize) ∧
      (∀ m, TFrame.errorF m ∈ runTTS cfg env e0 streaming text csize →
        TFrame.errorF m ∈ runTTS cfg { env with epoch := fun _ => e0 } e0
          streaming text csize)) ∧
    (runTTS ⟨1, 1, 100, 10⟩
        ⟨fun j => if j < 4 then 0 else 1, true, fun _ => GenRes.ok [1, 2]⟩ 0 true
        (("aaa bbb. ccc ddd. eee fff.").data) 0
      = [TFrame.started, TFrame.audio [1, 2] 0 3 (("aaa bbb.").data),
         TFrame.stopped]) ∧
    (∀ (ch : List Nat) (i tot : Nat) (tx : Text),
      TFrame.audio ch i tot tx ∈ runTTS ⟨1, 1, 100, 10⟩
        ⟨fun j => if j < 4 then 0 else 1, true, fun _ => GenRes.ok [1, 2]⟩ 0 true
        (("aaa bbb. ccc ddd. eee fff.").data) 0 → i = 0) := by
  have hconc : runTTS ⟨1, 1, 100, 10⟩
      ⟨fun j => if j < 4 then 0 else 1, true, fun _ => GenRes.ok [1, 2]⟩ 0 true
      (("aaa bbb. ccc ddd. eee fff.").data) 0
      = [TFrame.started, TFrame.audio [1, 2] 0 3 (("aaa bbb.").data),
         TFrame.stopped] := by decide
  refine ⟨?_, hconc, ?_⟩
  · intro cfg env e0 streaming text csize K hK
    by_cases hinit : env.initOk = true
    · have hinitF : ({ env with epoch := fun _ => e0 } : TTSEnv).initOk = true := hinit
      by_cases hc0 : env.epoch 0 = e0
      · set S := (if (if streaming then splitTextForTTS cfg text else [text]) = []
          then [text] else (if streaming then splitTextForTTS cfg text else [text]))
          with hS
        rw [runTTS_main cfg env e0 streaming text csize S hS hinit hc0,
          runTTS_main cfg { env with epoch := fun _ => e0 } e0 streaming text csize
            S hS hinitF rfl]
        obtain ⟨sEq, sPre⟩ := segLoop_cutoff env e0 S.length S 0 1 csize
        constructor
        · rw [audioFrames_runmain env e0 S.length S csize,
            audioFrames_runmain { env with epoch := fun _ => e0 } e0 S.length S csize]
          exact sPre
        · intro m hm
          rcases List.mem_cons.mp hm with h1 | h2
          · cases h1
          · rcases List.mem_append.mp h2 with h3 | h4
            · exact absurd (segLoop_frames_audio env e0 S.length S 0 1 csize _ h3)
                (by simp [isAudioF])
            · cases hst : (segLoop env e0 S.length S 0 1 csize).2 with
              | done => rw [hst] at h4; simp at h4
              | aborted => rw [hst] at h4; simp at h4
              | failed m2 =>
                rw [hst] at h4
                have hm2 : m = m2 := by simpa using h4
                have hEq := sEq (by rw [hst]; simp)
                apply List.mem_cons_of_mem
                apply List.mem_append_right
                rw [← hEq, hst]
                simp [hm2]
      · have hred : runTTS cfg env e0 streaming text csize
            = [TFrame.started, TFrame.stopped] := by
          rw [runTTS, if_neg (by simp [hinit]), if_pos hc0]
        rw [hred]
        constructor
        · exact List.nil_prefix
        · intro m hm
          simp at hm
    · have hredK : runTTS cfg env e0 streaming text csize
          = [TFrame.started, TFrame.errorF ("Failed to initialize Kokoro worker"),
             TFrame.stopped] := by
        rw [runTTS, if_pos (by simp [Bool.not_eq_true] at hinit ⊢; exact hinit)]
      have hredF : runTTS cfg { env with epoch := fun _ => e0 } e0 streaming text csize
          = [TFrame.started, TFrame.errorF ("Failed to initialize Kokoro worker"),
             TFrame.stopped] := by
        rw [runTTS, if_pos (by simp [Bool.not_eq_true] at hinit ⊢; exact hinit)]
      rw [hredK, hredF]
      exact ⟨List.prefix_refl _, fun m hm => hm⟩
  · intro ch i tot tx hmem
    rw [hconc] at hmem
    simp only [List.mem_cons, List.not_mem_nil, or_false] at hmem
    rcases hmem with hmem | hmem | hmem
    · cases hmem
    · exact ((TFrame.audio.injEq _ _ _ _ _ _ _ _).mp hmem).2.1
    · cases hmem

end Iara

namespace Iara

/-- Witness for C3's general part at the concrete interrupted scenario
(cutoff K = 4, i.e. the epoch changes after segment 1's audio check). -/
theorem run_tts_interrupt_abandonment_witness :
    audioFrames (runTTS ⟨1, 1, 100, 10⟩
        ⟨fun j => if j < 4 then 0 else 1, true, fun _ => GenRes.ok [1, 2]⟩ 0 true
        (("aaa bbb. ccc ddd. eee fff.").data) 0)
      <+: audioFrames (runTTS ⟨1, 1, 100, 10⟩
        { (⟨fun j => if j < 4 then 0 else 1, true, fun _ => GenRes.ok [1, 2]⟩ : TTSEnv)
          with epoch := fun _ => 0 } 0 true
        (("aaa bbb. ccc ddd. eee fff.").data) 0) :=
  (run_tts_interrupt_abandonment.1 ⟨1, 1, 100, 10⟩
    ⟨fun j => if j < 4 then 0 else 1, true, fun _ => GenRes.ok [1, 2]⟩ 0 true
    (("aaa bbb. ccc ddd. eee fff.").data) 0 4
    (fun j => by by_cases h : j < 4 <;> simp [h])).1

/-- C2: concatenating all segments returned by `_split_text_for_tts` and
removing all whitespace yields exactly the input text with all
whitespace removed — no non-whitespace character is dropped or
duplicated. -/
theorem segmenter_non_loss (cfg : SegConfig) (t : Text) :
    dropWS (splitTextForTTS cfg t).flatten = dropWS t :=
  splitTextForTTS_flatten cfg t

/-- C1 counterexample: with bounds (minChars 5, minWords 3, maxChars 10,
maxWords 5) the input "aaaaaaaaaaaa bb cc dd." comes back as the single
segment "aaaaaaaaaaaa bb cc dd." of 22 characters and 4 words: the final
short-merge pass glued the oversized single-word chunk onto the
following bounded chunk, so the returned segment exceeds maxChars while
being neither within bounds nor a single word. -/
theorem segmenter_length_bound_cex :
    splitTextForTTS ⟨5, 3, 10, 5⟩ (("aaaaaaaaaaaa bb cc dd.").data)
      = [("aaaaaaaaaaaa bb cc dd.").data]
    ∧ (("aaaaaaaaaaaa bb cc dd.").data).length > (10 : Nat)
    ∧ (pyWords (("aaaaaaaaaaaa bb cc dd.").data)).length = 4 := by
  decide

/-- C1 (amended): every segment returned by `_split_text_for_tts` is a
`ShortMerge` of units each within bounds or a single word exceeding
them: the segment is either such a unit itself, or was produced by the
final merge pass gluing units one at a time onto an accumulated prefix
that was still below the minimum word count.  A segment exceeding the
maxima therefore arises only as a lone overlong word, or from that
forward merge starting from a too-short fragment. -/
theorem segmenter_length_bound_amended (cfg : SegConfig) (t s : Text)
    (hs : s ∈ splitTextForTTS cfg t) : ShortMerge cfg (okUnit cfg) s :=
  splitTextForTTS_mem_shortMerge cfg t s hs

/-- Witness for C1's amended statement at the counterexample input. -/
theorem segmenter_length_bound_witness :
    ShortMerge ⟨5, 3, 10, 5⟩ (okUnit ⟨5, 3, 10, 5⟩)
      (("aaaaaaaaaaaa bb cc dd.").data) :=
  segmenter_length_bound_amended ⟨5, 3, 10, 5⟩ (("aaaaaaaaaaaa bb cc dd.").data)
    (("aaaaaaaaaaaa bb cc dd.").data) (by decide)

end Iara
